import Mathlib

/-!
# kubectl-cronjob-timetable: schedule walker, timetable aggregator, window setup

A shallow embedding of `main.go`.

* An instant (`time.Time`) is an `Int`: nanoseconds since Go's zero time
  (January 1, year 1, 00:00:00 UTC).  `t.After u` is `u < t`, `t.Before u` is
  `t < u`, `t.Equal u` is `t = u`, `t.IsZero()` is `t = 0`, `t.Add d` is `t + d`.
* `cron.Schedule` is an interface with one method `Next`; it is a structure
  holding a function on instants. Within one call of `scheduleTimeList` every
  argument of `Next` carries the location of `since`, so the location is part
  of the function.
* The keys of a `timetable` are compared as instants. Within one call of
  `generateTimetable` a key is `since` itself or a result of `Next`, and two of
  these that are the same instant are the same `time.Time` value.
* `cron.ParseStandard`, `time.Parse`, `time.Now()` and `Time.Day` belong to
  libraries or to the environment and are parameters. For the seven layouts of
  `parseAbsoluteTime` there is also `time.Parse` itself, modelled.
* The `for { ... }` loop of `scheduleTimeList` has no bound of its own, so its
  embedding takes a fuel argument and returns `none` when the fuel is used up.
-/

namespace CronjobTimetable

/-! ## Data model -/

/-- One second (`time.Second`) in nanoseconds. -/
def second : Int := 1000000000

/-- One hour (`time.Hour`) in nanoseconds. -/
def hour : Int := 3600 * second

/-- The interface `cron.Schedule`: its single method `Next`. -/
structure Schedule where
  Next : Int → Int

/-- The struct `timetableColumns`. -/
structure timetableColumns where
  namespace_ : String
  name : String
  schedule : String
  suspend : Bool
  deriving DecidableEq, Repr

/-- The type `timetable`, `map[time.Time][]timetableColumns`, as an association
list with one pair per key. -/
abbrev timetable := List (Int × List timetableColumns)

/-- The fields of `batchv1beta1.CronJob` that `generateTimetable` reads.
`Suspend` is a `*bool`: `none` is the nil pointer. -/
structure CronJob where
  Namespace : String
  Name : String
  Schedule : String
  Suspend : Option Bool
  deriving DecidableEq, Repr

/-! ## scheduleTimeList (main.go 244-263) -/

/-- The loop `for { t = sched.Next(t); if t.After(until) { break }; ret = append(ret, t) }`. -/
def scheduleTimeList.loop (sched : Schedule) (until_ : Int) : Nat → Int → List Int → Option (List Int)
  | 0, _, _ => none
  | fuel + 1, t, ret =>
    let t := sched.Next t
    if until_ < t then some ret
    else scheduleTimeList.loop sched until_ fuel t (ret ++ [t])

/-- The function `scheduleTimeList`. -/
def scheduleTimeList (fuel : Nat) (sched : Schedule) (since until_ : Int) : Option (List Int) :=
  let ret : List Int := []
  let sinceMinusOneSec := since + (-1) * second
  let ret := if sched.Next sinceMinusOneSec = since then ret ++ [since] else ret
  scheduleTimeList.loop sched until_ fuel since ret

/-- The loop of `scheduleTimeList` once more, with a counter of the calls of
`sched.Next` next to `ret`. -/
def scheduleTimeList.loopCalls (sched : Schedule) (until_ : Int) :
    Nat → Int → List Int → Nat → Option (List Int × Nat)
  | 0, _, _, _ => none
  | fuel + 1, t, ret, calls =>
    let t := sched.Next t
    let calls := calls + 1
    if until_ < t then some (ret, calls)
    else scheduleTimeList.loopCalls sched until_ fuel t (ret ++ [t]) calls

/-! ## generateTimetable (main.go 205-224) -/

/-- The map read `tt[k]`: the nil slice when the key is absent. -/
def timetable.get (tt : timetable) (k : Int) : List timetableColumns :=
  match tt with
  | [] => []
  | (k', v) :: rest => if k' = k then v else timetable.get rest k

/-- The keys of the map. -/
def timetable.keys (tt : timetable) : List Int := tt.map Prod.fst

/-- The map write `tt[k] = v`. -/
def timetable.set (tt : timetable) (k : Int) (v : List timetableColumns) : timetable :=
  match tt with
  | [] => [(k, v)]
  | (k', v') :: rest => if k' = k then (k', v) :: rest else (k', v') :: timetable.set rest k v

/-- How a call ends: it returns a value, or it panics on a nil pointer dereference. -/
inductive Outcome (α : Type) where
  | returned (a : α)
  | nilDeref
  deriving Repr

/-- The message of `fmt.Errorf("Could not parse schedule spec '%s' of CronJob '%s/%s': %w", ...)`. -/
def parseErrorMessage (cronjob : CronJob) (err : String) : String :=
  "Could not parse schedule spec '" ++ cronjob.Schedule ++ "' of CronJob '" ++
    cronjob.Namespace ++ "/" ++ cronjob.Name ++ "': " ++ err

/-- The inner loop `for _, schedTime := range scheduleTimeList(...)`: each round
dereferences `cronjob.Spec.Suspend` and appends to `tt[schedTime]`. -/
def generateTimetable.inner (cronjob : CronJob) : List Int → timetable → Option timetable
  | [], tt => some tt
  | schedTime :: rest, tt =>
    match cronjob.Suspend with
    | none => none
    | some suspend =>
      generateTimetable.inner cronjob rest
        (tt.set schedTime (tt.get schedTime ++
          [{ namespace_ := cronjob.Namespace, name := cronjob.Name,
             schedule := cronjob.Schedule, suspend := suspend }]))

/-- The outer loop `for _, cronjob := range cronjobs`. The result pair is
`(timetable, error)`; `none` in the first place is the nil map, `none` in the
second is the nil error. -/
def generateTimetable.outer (ParseStandard : String → Except String Schedule) (fuel : Nat)
    (since until_ : Int) :
    List CronJob → timetable → Option (Outcome (Option timetable × Option String))
  | [], tt => some (.returned (some tt, none))
  | cronjob :: rest, tt =>
    match ParseStandard cronjob.Schedule with
    | .error err => some (.returned (none, some (parseErrorMessage cronjob err)))
    | .ok sched =>
      match scheduleTimeList fuel sched since until_ with
      | none => none
      | some times =>
        match generateTimetable.inner cronjob times tt with
        | none => some .nilDeref
        | some tt => generateTimetable.outer ParseStandard fuel since until_ rest tt

/-- The function `generateTimetable`. -/
def generateTimetable (ParseStandard : String → Except String Schedule) (fuel : Nat)
    (cronjobs : List CronJob) (since until_ : Int) :
    Option (Outcome (Option timetable × Option String)) :=
  generateTimetable.outer ParseStandard fuel since until_ cronjobs []

/-! ## parseAbsoluteTime (main.go 226-242) -/

/-- The slice `layouts` of `parseAbsoluteTime`. -/
def layouts : List String :=
  ["2006-01-02T15:04:05Z07:00", "2006-01-02T15:04:05", "2006-01-02T15:04", "2006-01-02T15",
   "2006-01-02", "2006-01", "2006"]

/-- The method `Time.In`: the same instant with the location set to `loc`. The
`time.Time` that `parseAbsoluteTime` returns is the pair of its instant and its
location. -/
def Time.In {L : Type} (t : Int) (loc : L) : Int × L := (t, loc)

/-- The loop `for _, layout := range layouts` of `parseAbsoluteTime`. -/
def parseAbsoluteTime.loop {L : Type} (timeParse : String → String → Except String Int)
    (value : String) (destLocation : L) : List String → Except String (Int × L)
  | [] => .error ("Could not parse time value '" ++ value ++ "'")
  | layout :: rest =>
    match timeParse layout value with
    | .ok t => .ok (Time.In t destLocation)
    | .error _ => parseAbsoluteTime.loop timeParse value destLocation rest

/-- The function `parseAbsoluteTime`; `timeParse` is `time.Parse`, of which
only the instant of the result is used. -/
def parseAbsoluteTime {L : Type} (timeParse : String → String → Except String Int)
    (value : String) (destLocation : L) : Except String (Int × L) :=
  parseAbsoluteTime.loop timeParse value destLocation layouts

/-! ## time.Parse and time.Date (library code, modelled)

`time.Parse` belongs to the Go library. What follows reads a value against one
of the seven layouts of `parseAbsoluteTime` the way `time.Parse` does: a year
of four digits, month, day, minute and second of two digits, an hour of one or
two digits, an optional fraction after the seconds, a zone `Z` or `±hh:mm`,
every other character of the layout verbatim, and nothing left over. -/

/-- The elements of the seven layouts: `2006`, `01`, `02`, `15`, `04`, `05`,
`Z07:00`, and any other character, which stands for itself. -/
inductive Chunk where
  | year
  | month
  | day
  | hour
  | minute
  | second
  | zone
  | lit (c : Char)
  deriving DecidableEq, Repr

/-- The date and time that `time.Parse` has read so far; `offset` is the zone
offset in seconds east of UTC. -/
structure Fields where
  year : Int
  month : Int
  day : Int
  hour : Int
  min : Int
  sec : Int
  nsec : Int
  offset : Int
  deriving DecidableEq, Repr

/-- Modelled from the spec: the values `time.Parse` starts from, which stay
for the elements the layout omits ("defaulting omitted fields to their
minimum"): month 1, day 1, 00:00:00, no offset. -/
def Fields.start : Fields :=
  { year := 0, month := 1, day := 1, hour := 0, min := 0, sec := 0, nsec := 0, offset := 0 }

/-- Modelled from the spec: the elements of each of the seven layouts, in the
order `time.Parse` meets them. -/
def layoutChunks (layout : String) : List Chunk :=
  let date := [Chunk.year, .lit '-', .month, .lit '-', .day]
  if layout = "2006-01-02T15:04:05Z07:00" then
    date ++ [.lit 'T', .hour, .lit ':', .minute, .lit ':', .second, .zone]
  else if layout = "2006-01-02T15:04:05" then
    date ++ [.lit 'T', .hour, .lit ':', .minute, .lit ':', .second]
  else if layout = "2006-01-02T15:04" then date ++ [.lit 'T', .hour, .lit ':', .minute]
  else if layout = "2006-01-02T15" then date ++ [.lit 'T', .hour]
  else if layout = "2006-01-02" then date
  else if layout = "2006-01" then [.year, .lit '-', .month]
  else if layout = "2006" then [.year]
  else layout.toList.map Chunk.lit

/-- The value of a decimal digit. -/
def digitOf (c : Char) : Option Int :=
  if c = '0' then some 0 else if c = '1' then some 1 else if c = '2' then some 2
  else if c = '3' then some 3 else if c = '4' then some 4 else if c = '5' then some 5
  else if c = '6' then some 6 else if c = '7' then some 7 else if c = '8' then some 8
  else if c = '9' then some 9 else none

/-- Modelled from the spec: a number of two digits, or of one digit when
`fixed` is false and no second digit follows. -/
def getnum (fixed : Bool) : List Char → Option (Int × List Char)
  | [] => none
  | c1 :: rest =>
    match digitOf c1 with
    | none => none
    | some d1 =>
      match rest with
      | [] => if fixed then none else some (d1, [])
      | c2 :: rest2 =>
        match digitOf c2 with
        | some d2 => some (d1 * 10 + d2, rest2)
        | none => if fixed then none else some (d1, rest)

/-- Modelled from the spec: a year of exactly four digits. -/
def getyear : List Char → Option (Int × List Char)
  | c1 :: c2 :: c3 :: c4 :: rest =>
    match digitOf c1, digitOf c2, digitOf c3, digitOf c4 with
    | some d1, some d2, some d3, some d4 => some (d1 * 1000 + d2 * 100 + d3 * 10 + d4, rest)
    | _, _, _, _ => none
  | _ => none

/-- The leading digits of a text and what follows them. -/
def takeDigits : List Char → List Int × List Char
  | [] => ([], [])
  | c :: rest =>
    match digitOf c with
    | some d => ((takeDigits rest).1.cons d, (takeDigits rest).2)
    | none => ([], c :: rest)

/-- Modelled from the spec: a fraction of a second after the seconds, a period
or comma and digits, read as nanoseconds from its first nine digits; without
one the nanoseconds are 0. -/
def getfraction (value : List Char) : Int × List Char :=
  match value with
  | sep :: c :: rest =>
    if (sep = '.' ∨ sep = ',') ∧ (digitOf c).isSome then
      let ds := (takeDigits (c :: rest)).1.take 9
      (ds.foldl (fun n d => n * 10 + d) 0 * 10 ^ (9 - ds.length), (takeDigits (c :: rest)).2)
    else (0, value)
  | _ => (0, value)

/-- Modelled from the spec: the zone of an RFC3339 timestamp, `Z` or a sign,
two digits of hours up to 24, a colon and two digits of minutes up to 60, as
an offset in seconds. -/
def getzone : List Char → Option (Int × List Char)
  | [] => none
  | c :: rest =>
    if c = 'Z' then some (0, rest)
    else
      match rest with
      | h1 :: h2 :: colon :: m1 :: m2 :: rest2 =>
        match getnum true [h1, h2], getnum true [m1, m2] with
        | some (hr, _), some (mm, _) =>
          if colon = ':' ∧ hr ≤ 24 ∧ mm ≤ 60 then
            if c = '+' then some ((hr * 60 + mm) * 60, rest2)
            else if c = '-' then some (-((hr * 60 + mm) * 60), rest2)
            else none
          else none
        | _, _ => none
      | _ => none

/-- Modelled from the spec: one element of the layout read from the front of
the value. -/
def parseChunk (c : Chunk) (f : Fields) (value : List Char) : Option (Fields × List Char) :=
  match c with
  | .year => (getyear value).map (fun p => ({ f with year := p.1 }, p.2))
  | .month =>
    (getnum true value).bind
      (fun p => if 1 ≤ p.1 ∧ p.1 ≤ 12 then some ({ f with month := p.1 }, p.2) else none)
  | .day => (getnum true value).map (fun p => ({ f with day := p.1 }, p.2))
  | .hour =>
    (getnum false value).bind
      (fun p => if p.1 < 24 then some ({ f with hour := p.1 }, p.2) else none)
  | .minute =>
    (getnum true value).bind
      (fun p => if p.1 < 60 then some ({ f with min := p.1 }, p.2) else none)
  | .second =>
    (getnum true value).bind
      (fun p => if p.1 < 60 then
        some ({ f with sec := p.1, nsec := (getfraction p.2).1 }, (getfraction p.2).2)
      else none)
  | .zone => (getzone value).map (fun p => ({ f with offset := p.1 }, p.2))
  | .lit c =>
    match value with
    | [] => none
    | c' :: rest => if c' = c then some (f, rest) else none

/-- The elements of a layout read one after the other. -/
def parseChunks : List Chunk → Fields → List Char → Option (Fields × List Char)
  | [], f, value => some (f, value)
  | c :: cs, f, value =>
    match parseChunk c f value with
    | none => none
    | some (f', value') => parseChunks cs f' value'

/-- The number of days of a month of a year. -/
def daysIn (month year : Int) : Int :=
  if month = 2 then (if year % 4 = 0 ∧ (year % 100 ≠ 0 ∨ year % 400 = 0) then 29 else 28)
  else if month = 4 ∨ month = 6 ∨ month = 9 ∨ month = 11 then 30
  else 31

/-- Modelled from the spec: `time.Date(year, month, day, hour, min, sec, nsec,
time.UTC)` as an instant, for a month from 1 to 12. -/
def dateUTC (year month d h mi s ns : Int) : Int :=
  let y := if month ≤ 2 then year - 1 else year
  let era := y / 400
  let yoe := y - era * 400
  let mp := (month + 9) % 12
  let doy := (153 * mp + 2) / 5 + d - 1
  let doe := yoe * 365 + yoe / 4 - yoe / 100 + doy
  (era * 146097 + doe - 306) * (24 * hour) + h * hour + mi * (60 * second) + s * second + ns

/-- The instant of the date and time read: the date in UTC, moved back by the
zone offset. -/
def Fields.instant (f : Fields) : Int :=
  dateUTC f.year f.month f.day f.hour f.min f.sec f.nsec - f.offset * second

/-- Modelled from the spec: a value read against a layout: every element is
read, nothing is left over, and the day exists in its month. -/
def parseFields (layout value : String) : Option Fields :=
  match parseChunks (layoutChunks layout) Fields.start value.toList with
  | some (f, []) => if 1 ≤ f.day ∧ f.day ≤ daysIn f.month f.year then some f else none
  | _ => none

/-- Modelled from the spec: `time.Parse(layout, value)` for the seven layouts
of `parseAbsoluteTime`, as the instant of the result. -/
def time.Parse (layout value : String) : Except String Int :=
  match parseFields layout value with
  | some f => .ok f.instant
  | none => .error ("parsing time \"" ++ value ++ "\" as \"" ++ layout ++ "\": cannot parse")

/-! ## run (main.go 31-194): the window setup and the sorted key sequence -/

/-- The location a `time.Time` of `run` carries: the zero value has UTC, a parsed
flag has the display location, `time.Now()` has `time.Local`. -/
inductive Loc where
  | utc
  | display
  | local_
  deriving DecidableEq, Repr

/-- The errors `run` returns while it sets the timetable period. -/
inductive ConfigError where
  /-- Message "Failed to parse since time: %w". -/
  | parseSince (err : String)
  /-- Message "Failed to parse until time: %w". -/
  | parseUntil (err : String)
  /-- Message "Since time is newer than until time". -/
  | sinceNewer
  /-- Message "Does not support differences over 5 years. %s - %s = %d days". -/
  | overFiveYears (until_ since diff : Int)
  deriving DecidableEq, Repr

/-- Lines 69-72 and 80-115 of `run`, once the display location is loaded: the
period `(since, until)` handed on to `generateTimetable`, or the error
returned. `Day loc t` is `Time.Day` of the instant `t` in location `loc`; `now`
is `time.Now()`. -/
def run.window (timeParse : String → String → Except String Int) (Day : Loc → Int → Int)
    (now : Int) (sinceFlag untilFlag : String) : Except ConfigError (Int × Int) :=
  let since : Int × Loc := (0, Loc.utc)
  let until_ : Int × Loc := (0, Loc.utc)
  match (if sinceFlag ≠ "" then
      match parseAbsoluteTime timeParse sinceFlag Loc.display with
      | .ok t => Except.ok t
      | .error err => Except.error (ConfigError.parseSince err)
    else Except.ok since) with
  | .error e => .error e
  | .ok since =>
    match (if untilFlag ≠ "" then
        match parseAbsoluteTime timeParse untilFlag Loc.display with
        | .ok t => Except.ok t
        | .error err => Except.error (ConfigError.parseUntil err)
      else Except.ok until_) with
    | .error e => .error e
    | .ok until_ =>
      if until_.1 < since.1 then .error ConfigError.sinceNewer
      else
        let (since, until_) :=
          if since.1 = 0 ∧ until_.1 = 0 then ((now, Loc.local_), (now + 1 * hour, Loc.local_))
          else if since.1 = 0 ∧ ¬ until_.1 = 0 then ((now, Loc.local_), until_)
          else if ¬ since.1 = 0 ∧ until_.1 = 0 then (since, (now, Loc.local_))
          else (since, until_)
        let diff := Day until_.2 until_.1 - Day since.2 since.1
        if diff > 365 * 5 then .error (ConfigError.overFiveYears until_.1 since.1 diff)
        else .ok (since.1, until_.1)

/-- Lines 172-179 of `run`: `keyTimes := make([]time.Time, len(tt))`, one
`append` per key of the map, then `sort.Slice` by `Before`. The map is ranged
over in the order of the association list. -/
def run.keyTimes (tt : timetable) : List Int :=
  let keyTimes : List Int := List.replicate tt.length 0
  let keyTimes := tt.foldl (fun keyTimes kv => keyTimes ++ [kv.1]) keyTimes
  keyTimes.insertionSort (fun a b => a ≤ b)

/-- Lines 186-190 of `run`: one data row per `keyTime` of `keyTimes` and entry
of `tt[keyTime]`, in the order they are written. A row is the instant and the
entry it is formatted from. The zero values that `make` puts in `keyTimes` are
`time.Time{}`; a key of `tt` at the zero instant is that same value when the
display location is UTC, which is the case embedded here. -/
def run.rows (tt : timetable) : List (Int × timetableColumns) :=
  (run.keyTimes tt).foldl
    (fun w keyTime => (tt.get keyTime).foldl (fun w ttc => w ++ [(keyTime, ttc)]) w) []

/-! ## Specification vocabulary -/

/-- The forward walk from `t`: `l` lists `Next t`, `Next (Next t)`, ... as long as
they are not after `until_`, and the next one is after `until_`. -/
def IsWalk (sched : Schedule) (until_ : Int) : Int → List Int → Prop
  | t, [] => until_ < sched.Next t
  | t, x :: xs => x = sched.Next t ∧ x ≤ until_ ∧ IsWalk sched until_ x xs

/-- The instant `since` when the boundary check of `scheduleTimeList` admits it. -/
def boundary (sched : Schedule) (since : Int) : List Int :=
  if sched.Next (since + (-1) * second) = since then [since] else []

/-- The entry `generateTimetable` appends for a job. -/
def columnsOf (cronjob : CronJob) : timetableColumns :=
  { namespace_ := cronjob.Namespace, name := cronjob.Name,
    schedule := cronjob.Schedule, suspend := cronjob.Suspend.getD false }

/-- The instants `scheduleTimeList` returns for a job's schedule. -/
def jobTimes (ParseStandard : String → Except String Schedule) (fuel : Nat)
    (since until_ : Int) (cronjob : CronJob) : List Int :=
  match ParseStandard cronjob.Schedule with
  | .ok sched => (scheduleTimeList fuel sched since until_).getD []
  | .error _ => []

/-- Whether a job's schedule expression parses. -/
def parses (ParseStandard : String → Except String Schedule) (cronjob : CronJob) : Bool :=
  match ParseStandard cronjob.Schedule with
  | .ok _ => true
  | .error _ => false

/-! ## Fixtures -/

/-- One day in nanoseconds. -/
def day : Int := 24 * hour

/-- The schedule `0 * * * *` read in UTC: the next whole hour. -/
def everyHour : Schedule := ⟨fun t => (t / hour + 1) * hour⟩

/-- The schedule `* * * * *`: the next whole minute. -/
def everyMinute : Schedule := ⟨fun t => (t / (60 * second) + 1) * (60 * second)⟩

/-- A parser that knows two expressions and rejects the rest. -/
def fixtureParse (spec : String) : Except String Schedule :=
  if spec = "0 * * * *" then .ok everyHour
  else if spec = "* * * * *" then .ok everyMinute
  else .error ("invalid spec: " ++ spec)

/-- The instant 2020-01-01T00:00:00Z: 737424 days after the zero time. -/
def t2020 : Int := 737424 * day

/-- The instant 2000-01-01T00:00:00Z: 730119 days after the zero time. -/
def t2000 : Int := 730119 * day

/-- `Time.Day` in UTC: the day of the month of an instant, by the proleptic
Gregorian calendar. -/
def utcDay (t : Int) : Int :=
  let z := t / day + 306
  let era := z / 146097
  let doe := z - era * 146097
  let yoe := (doe - doe / 1460 + doe / 36524 - doe / 146096) / 365
  let doy := doe - (365 * yoe + yoe / 4 - yoe / 100)
  let mp := (5 * doy + 2) / 153
  doy - (153 * mp + 2) / 5 + 1

/-- A `time.Parse` that knows the date layout for two dates. -/
def fixtureTimeParse (layout value : String) : Except String Int :=
  if layout = "2006-01-02" ∧ value = "2020-01-01" then .ok t2020
  else if layout = "2006-01-02" ∧ value = "2000-01-01" then .ok t2000
  else .error ("cannot parse " ++ value ++ " as " ++ layout)

/-- One minute in nanoseconds. -/
def minute : Int := 60 * second

/-- Two jobs with `Suspend` set; both fire at 2020-01-01T00:00:00Z. -/
def fixtureJobs : List CronJob :=
  [⟨"foo", "bar", "0 * * * *", some false⟩, ⟨"baz", "qux", "* * * * *", some true⟩]

/-- The timetable of `fixtureJobs` over the two minutes from 2020-01-01T00:00:00Z. -/
def fixtureTimetable : timetable :=
  [(t2020, [⟨"foo", "bar", "0 * * * *", false⟩, ⟨"baz", "qux", "* * * * *", true⟩]),
   (t2020 + minute, [⟨"baz", "qux", "* * * * *", true⟩]),
   (t2020 + 2 * minute, [⟨"baz", "qux", "* * * * *", true⟩])]

/-- A job with a nil `Suspend` that fires in the window, then a job whose
expression does not parse. -/
def nilSuspendJobs : List CronJob :=
  [⟨"foo", "bar", "0 * * * *", none⟩, ⟨"baz", "qux", "99 * * * *", some false⟩]

/-- A job whose expression does not parse between two that do. -/
def badSpecJobs : List CronJob :=
  [⟨"foo", "bar", "0 * * * *", some false⟩, ⟨"baz", "qux", "99 * * * *", some false⟩,
   ⟨"a", "b", "* * * * *", some true⟩]

/-- The rows of a timetable by ascending key, the entries of one key in their
order in the timetable. -/
def rowsByKey (tt : timetable) : List (Int × timetableColumns) :=
  ((timetable.keys tt).insertionSort (fun a b => a ≤ b)).flatMap
    (fun k => (timetable.get tt k).map (fun ttc => (k, ttc)))

/-- A job that fires every hour, with `Suspend` set. -/
def hourlyJobs : List CronJob := [⟨"foo", "bar", "0 * * * *", some false⟩]

/-- The timetable of `hourlyJobs` from 0000-12-31T23:00:00Z to
0001-01-01T01:00:00Z: its middle key is the zero instant. -/
def zeroKeyTimetable : timetable :=
  [(-hour, [⟨"foo", "bar", "0 * * * *", false⟩]), (0, [⟨"foo", "bar", "0 * * * *", false⟩]),
   (hour, [⟨"foo", "bar", "0 * * * *", false⟩])]

/-- The jobs of `fixtureJobs` in the other order. -/
def fixtureJobsSwapped : List CronJob :=
  [⟨"baz", "qux", "* * * * *", some true⟩, ⟨"foo", "bar", "0 * * * *", some false⟩]

/-- The timetable of `fixtureJobsSwapped` over the two minutes from
2020-01-01T00:00:00Z. -/
def fixtureTimetableSwapped : timetable :=
  [(t2020, [⟨"baz", "qux", "* * * * *", true⟩, ⟨"foo", "bar", "0 * * * *", false⟩]),
   (t2020 + minute, [⟨"baz", "qux", "* * * * *", true⟩]),
   (t2020 + 2 * minute, [⟨"baz", "qux", "* * * * *", true⟩])]

/-- An hourly job with a nil `Suspend`, then a job that fires every minute. -/
def idleNilSuspendJobs : List CronJob :=
  [⟨"foo", "bar", "0 * * * *", none⟩, ⟨"baz", "qux", "* * * * *", some true⟩]

/-- The schedule `0 0 30 2 *`, a 30th of February: `Next` finds no time and
returns the zero time, whatever its argument. -/
def neverSchedule : Schedule := ⟨fun _ => 0⟩

/-- A parser that knows `0 0 30 2 *` next to the expressions of `fixtureParse`. -/
def stuckParse (spec : String) : Except String Schedule :=
  if spec = "0 0 30 2 *" then .ok neverSchedule else fixtureParse spec

/-- A job whose schedule never fires, with `Suspend` set. -/
def stuckJobs : List CronJob := [⟨"foo", "bar", "0 0 30 2 *", some false⟩]

/-- A job whose schedule never fires, then a job whose expression does not parse. -/
def stuckBadJobs : List CronJob :=
  [⟨"foo", "bar", "0 0 30 2 *", some false⟩, ⟨"baz", "qux", "99 * * * *", some false⟩]

/-- A job whose expression does not parse, then a job with a nil `Suspend`
that fires in the window. -/
def badThenNilJobs : List CronJob :=
  [⟨"baz", "qux", "99 * * * *", some false⟩, ⟨"foo", "bar", "0 * * * *", none⟩]

/-- An hourly job with a nil `Suspend`, then a job whose expression does not parse. -/
def idleNilThenBadJobs : List CronJob :=
  [⟨"foo", "bar", "0 * * * *", none⟩, ⟨"baz", "qux", "99 * * * *", some false⟩]

/-! ## The forward walk -/

theorem loop_eq_some_iff (sched : Schedule) (until_ : Int) (fuel : Nat) (t : Int)
    (ret r : List Int) :
    scheduleTimeList.loop sched until_ fuel t ret = some r ↔
      ∃ l, r = ret ++ l ∧ IsWalk sched until_ t l ∧ l.length < fuel := by
  induction fuel generalizing t ret with
  | zero => simp [scheduleTimeList.loop]
  | succ n ih =>
    unfold scheduleTimeList.loop
    by_cases h : until_ < sched.Next t
    · simp only [h, if_true]
      constructor
      · intro hr
        refine ⟨[], ?_, h, Nat.succ_pos n⟩
        simpa using (Option.some.inj hr).symm
      · rintro ⟨l, hl, hw, -⟩
        cases l with
        | nil => simp [hl]
        | cons x xs =>
          obtain ⟨hx, hle, -⟩ := hw
          exact absurd (hx ▸ hle) (not_le.mpr h)
    · simp only [h, if_false]
      rw [ih]
      constructor
      · rintro ⟨l, hl, hw, hlen⟩
        refine ⟨sched.Next t :: l, ?_, ⟨rfl, not_lt.mp h, hw⟩, ?_⟩
        · simpa using hl
        · simpa using hlen
      · rintro ⟨l, hl, hw, hlen⟩
        cases l with
        | nil => exact absurd hw h
        | cons x xs =>
          obtain ⟨hx, -, hw⟩ := hw
          subst hx
          refine ⟨xs, ?_, hw, ?_⟩
          · simpa using hl
          · simpa using hlen

theorem scheduleTimeList_eq_some_iff (fuel : Nat) (sched : Schedule) (since until_ : Int)
    (r : List Int) :
    scheduleTimeList fuel sched since until_ = some r ↔
      ∃ l, r = boundary sched since ++ l ∧ IsWalk sched until_ since l ∧ l.length < fuel := by
  unfold scheduleTimeList boundary
  rw [loop_eq_some_iff]
  by_cases h : sched.Next (since + (-1) * second) = since <;> simp [h]

theorem IsWalk.unique {sched : Schedule} {until_ : Int} {t : Int} {l l' : List Int}
    (h : IsWalk sched until_ t l) (h' : IsWalk sched until_ t l') : l = l' := by
  induction l generalizing t l' with
  | nil =>
    cases l' with
    | nil => rfl
    | cons x xs => exact absurd (h'.1 ▸ h'.2.1) (not_le.mpr h)
  | cons y ys ih =>
    cases l' with
    | nil => exact absurd (h.1 ▸ h.2.1) (not_le.mpr h')
    | cons x xs =>
      obtain ⟨hy, -, hw⟩ := h
      obtain ⟨hx, -, hw'⟩ := h'
      have hxy : y = x := hy.trans hx.symm
      subst hxy
      rw [ih hw hw']

theorem IsWalk.exists_of_advancing (sched : Schedule) (until_ : Int)
    (hadv : ∀ t, t < sched.Next t) (t : Int) : ∃ l, IsWalk sched until_ t l := by
  have key : ∀ n : Nat, ∀ t : Int, (until_ - t).toNat ≤ n → ∃ l, IsWalk sched until_ t l := by
    intro n
    induction n with
    | zero =>
      intro t ht
      refine ⟨[], ?_⟩
      have := hadv t
      show until_ < sched.Next t
      omega
    | succ n ih =>
      intro t ht
      by_cases h : until_ < sched.Next t
      · exact ⟨[], h⟩
      · have := hadv t
        obtain ⟨l, hl⟩ := ih (sched.Next t) (by omega)
        exact ⟨sched.Next t :: l, rfl, not_lt.mp h, hl⟩
  exact key _ t le_rfl

theorem IsWalk.le_until {sched : Schedule} {until_ : Int} {t : Int} {l : List Int}
    (h : IsWalk sched until_ t l) : ∀ x ∈ l, x ≤ until_ := by
  induction l generalizing t with
  | nil => simp
  | cons y ys ih =>
    intro x hx
    rcases List.mem_cons.mp hx with rfl | hx
    · exact h.2.1
    · exact ih h.2.2 x hx

theorem IsWalk.pairwise_of_advancing {sched : Schedule} {until_ : Int}
    (hadv : ∀ t, t < sched.Next t) {t : Int} {l : List Int}
    (h : IsWalk sched until_ t l) : (t :: l).Pairwise (fun a b => a < b) := by
  rw [← List.chain_iff_pairwise]
  induction l generalizing t with
  | nil => exact List.Chain.nil
  | cons y ys ih =>
    obtain ⟨hy, -, hw⟩ := h
    exact List.Chain.cons (hy ▸ hadv t) (ih hw)

theorem IsWalk.suffix {sched : Schedule} {until_ : Int} {t : Int} {l : List Int}
    (h : IsWalk sched until_ t l) {x : Int} (hx : x ∈ l) :
    ∃ l', IsWalk sched until_ x l' ∧ l'.length < l.length := by
  induction l generalizing t with
  | nil => simp at hx
  | cons y ys ih =>
    rcases List.mem_cons.mp hx with rfl | hx
    · exact ⟨ys, h.2.2, by simp⟩
    · obtain ⟨l', hl', hlen⟩ := ih h.2.2 hx
      exact ⟨l', hl', by simp; omega⟩

theorem IsWalk.not_mem_start {sched : Schedule} {until_ : Int} {t : Int} {l : List Int}
    (h : IsWalk sched until_ t l) : t ∉ l := by
  intro ht
  obtain ⟨l', hl', hlen⟩ := h.suffix ht
  rw [hl'.unique h] at hlen
  exact lt_irrefl _ hlen

theorem IsWalk.nodup {sched : Schedule} {until_ : Int} {t : Int} {l : List Int}
    (h : IsWalk sched until_ t l) : l.Nodup := by
  induction l generalizing t with
  | nil => exact List.nodup_nil
  | cons y ys ih => exact List.nodup_cons.mpr ⟨h.2.2.not_mem_start, ih h.2.2⟩

theorem scheduleTimeList_returns (sched : Schedule) (since until_ : Int)
    (hadv : ∀ t, t < sched.Next t) :
    ∃ fuel l, scheduleTimeList fuel sched since until_ = some l := by
  obtain ⟨w, hw⟩ := IsWalk.exists_of_advancing sched until_ hadv since
  exact ⟨w.length + 1, boundary sched since ++ w,
    (scheduleTimeList_eq_some_iff _ _ _ _ _).mpr ⟨w, rfl, hw, Nat.lt_succ_self _⟩⟩

theorem boundary_subset (sched : Schedule) (since : Int) :
    boundary sched since = [] ∨
      (boundary sched since = [since] ∧ sched.Next (since + (-1) * second) = since) := by
  unfold boundary
  by_cases h : sched.Next (since + (-1) * second) = since
  · exact Or.inr ⟨if_pos h, h⟩
  · exact Or.inl (if_neg h)

theorem everyHour_advancing : ∀ t, t < everyHour.Next t := by
  intro t
  show t < (t / (3600 * 1000000000) + 1) * (3600 * 1000000000)
  omega

theorem everyMinute_advancing : ∀ t, t < everyMinute.Next t := by
  intro t
  show t < (t / (60 * 1000000000) + 1) * (60 * 1000000000)
  omega

/-! ## Claims on scheduleTimeList -/

/-- C4: for a schedule whose `Next` strictly advances and a window with
`since ≤ until`, `scheduleTimeList` returns, and every instant it returns lies
in the window, both bounds included. -/
theorem scheduleTimeList_within_window (sched : Schedule) (since until_ : Int)
    (hadv : ∀ t, t < sched.Next t) (hw : since ≤ until_) :
    (∃ fuel l, scheduleTimeList fuel sched since until_ = some l) ∧
      ∀ fuel l, scheduleTimeList fuel sched since until_ = some l →
        ∀ t ∈ l, since ≤ t ∧ t ≤ until_ := by
  refine ⟨scheduleTimeList_returns sched since until_ hadv, ?_⟩
  intro fuel l hl t ht
  obtain ⟨w, rfl, hwalk, -⟩ := (scheduleTimeList_eq_some_iff _ _ _ _ _).mp hl
  rcases List.mem_append.mp ht with hb | hmem
  · rcases boundary_subset sched since with h | ⟨h, -⟩
    · simp [h] at hb
    · rw [h] at hb
      have : t = since := by simpa using hb
      subst this
      exact ⟨le_rfl, hw⟩
  · have hp := hwalk.pairwise_of_advancing hadv
    exact ⟨le_of_lt ((List.pairwise_cons.mp hp).1 t hmem), hwalk.le_until t hmem⟩

theorem scheduleTimeList_within_window_witness :
    scheduleTimeList 10 everyHour t2020 (t2020 + 2 * hour) =
        some [t2020, t2020 + hour, t2020 + 2 * hour] ∧
      (t2020 ≤ t2020 + 2 * hour ∧ t2020 + 2 * hour ≤ t2020 + 2 * hour) :=
  ⟨by rfl, (scheduleTimeList_within_window everyHour t2020 (t2020 + 2 * hour)
    everyHour_advancing (by decide)).2 10 [t2020, t2020 + hour, t2020 + 2 * hour] (by rfl)
    (t2020 + 2 * hour) (by decide)⟩

/-- C5: for a schedule whose `Next` strictly advances, `scheduleTimeList`
returns, `since` is among the returned instants iff `sched.Next (since - 1s)`
equals `since`, and when it is there it is the first one. -/
theorem scheduleTimeList_since_iff (sched : Schedule) (since until_ : Int)
    (hadv : ∀ t, t < sched.Next t) (hw : since ≤ until_) :
    (∃ fuel l, scheduleTimeList fuel sched since until_ = some l) ∧
      ∀ fuel l, scheduleTimeList fuel sched since until_ = some l →
        (since ∈ l ↔ sched.Next (since - second) = since) ∧
          (since ∈ l → l.head? = some since) := by
  have _ := hw
  refine ⟨scheduleTimeList_returns sched since until_ hadv, ?_⟩
  intro fuel l hl
  obtain ⟨w, rfl, hwalk, -⟩ := (scheduleTimeList_eq_some_iff _ _ _ _ _).mp hl
  have hnot : since ∉ w := hwalk.not_mem_start
  have e : since + (-1) * second = since - second := by ring
  rcases boundary_subset sched since with h | ⟨h, hn⟩
  · have hne : ¬ sched.Next (since - second) = since := by
      intro hn
      rw [← e] at hn
      have : boundary sched since = [since] := if_pos hn
      rw [h] at this
      exact absurd this (by simp)
    rw [h]
    simp [hnot, hne]
  · rw [e] at hn
    rw [h]
    simp [hn]

theorem scheduleTimeList_since_iff_witness :
    (t2020 ∈ [t2020, t2020 + hour, t2020 + 2 * hour] ↔ everyHour.Next (t2020 - second) = t2020) ∧
      (t2020 ∈ [t2020, t2020 + hour, t2020 + 2 * hour] →
        [t2020, t2020 + hour, t2020 + 2 * hour].head? = some t2020) :=
  (scheduleTimeList_since_iff everyHour t2020 (t2020 + 2 * hour) everyHour_advancing
    (by decide)).2 10 _ (by rfl)

/-- C6: for a schedule whose `Next` strictly advances and every window,
`scheduleTimeList` returns a strictly increasing sequence, so no instant is
there twice, and `since` can only be its first element. -/
theorem scheduleTimeList_strictly_increasing (sched : Schedule) (since until_ : Int)
    (hadv : ∀ t, t < sched.Next t) :
    (∃ fuel l, scheduleTimeList fuel sched since until_ = some l) ∧
      ∀ fuel l, scheduleTimeList fuel sched since until_ = some l →
        l.Sorted (fun a b => a < b) ∧ l.Nodup ∧ since ∉ l.tail := by
  refine ⟨scheduleTimeList_returns sched since until_ hadv, ?_⟩
  intro fuel l hl
  obtain ⟨w, rfl, hwalk, -⟩ := (scheduleTimeList_eq_some_iff _ _ _ _ _).mp hl
  have hp := hwalk.pairwise_of_advancing hadv
  have hnot : since ∉ w := hwalk.not_mem_start
  have hs : (boundary sched since ++ w).Sorted (fun a b => a < b) := by
    rcases boundary_subset sched since with h | ⟨h, -⟩
    · rw [h]
      exact (List.pairwise_cons.mp hp).2
    · rw [h]
      exact hp
  refine ⟨hs, ?_, ?_⟩
  · exact List.Pairwise.imp (fun h => ne_of_lt h) hs
  · rcases boundary_subset sched since with h | ⟨h, -⟩
    · rw [h]
      exact fun hmem => hnot (List.mem_of_mem_tail hmem)
    · rw [h]
      exact hnot

theorem scheduleTimeList_strictly_increasing_witness :
    [t2020, t2020 + hour, t2020 + 2 * hour].Sorted (fun a b => a < b) ∧
      [t2020, t2020 + hour, t2020 + 2 * hour].Nodup ∧
      t2020 ∉ [t2020, t2020 + hour, t2020 + 2 * hour].tail :=
  (scheduleTimeList_strictly_increasing everyHour t2020 (t2020 + 2 * hour)
    everyHour_advancing).2 10 _ (by rfl)

theorem IsWalk.mem_iff_of_earliest {sched : Schedule} {until_ : Int} (occ : Int → Prop)
    (hnext : ∀ t, occ (sched.Next t) ∧ t < sched.Next t ∧
      ∀ o, occ o → t < o → sched.Next t ≤ o)
    {t : Int} {l : List Int} (h : IsWalk sched until_ t l) :
    ∀ x, x ∈ l ↔ (occ x ∧ t < x ∧ x ≤ until_) := by
  induction l generalizing t with
  | nil =>
    intro x
    have hlt : until_ < sched.Next t := h
    constructor
    · intro hx
      simp at hx
    · rintro ⟨hox, htx, hxu⟩
      have := (hnext t).2.2 x hox htx
      omega
  | cons y ys ih =>
    intro x
    obtain ⟨hy, hyu, hw⟩ := h
    rw [List.mem_cons, ih hw x]
    constructor
    · rintro (rfl | ⟨hox, hyx, hxu⟩)
      · exact ⟨hy ▸ (hnext t).1, hy ▸ (hnext t).2.1, hyu⟩
      · have := (hnext t).2.1
        exact ⟨hox, by omega, hxu⟩
    · rintro ⟨hox, htx, hxu⟩
      have := (hnext t).2.2 x hox htx
      by_cases hxy : x = y
      · exact Or.inl hxy
      · exact Or.inr ⟨hox, by omega, hxu⟩

theorem boundary_eq_of_earliest (sched : Schedule) (occ : Int → Prop)
    (hnext : ∀ t, occ (sched.Next t) ∧ t < sched.Next t ∧
      ∀ o, occ o → t < o → sched.Next t ≤ o)
    (hsec : ∀ o, occ o → second ∣ o) (since : Int) :
    sched.Next (since + (-1) * second) = since ↔ occ since := by
  constructor
  · intro h
    rw [← h]
    exact (hnext _).1
  · intro ho
    obtain ⟨hon, hlt, hmin⟩ := hnext (since + (-1) * second)
    have hle := hmin since ho (by unfold second; omega)
    obtain ⟨a, ha⟩ := hsec _ hon
    obtain ⟨b, hb⟩ := hsec _ ho
    generalize sched.Next (since + (-1) * second) = n at hlt hle ha
    unfold second at ha hb hlt
    omega

theorem everyHour_earliest : ∀ t, (hour ∣ everyHour.Next t) ∧ t < everyHour.Next t ∧
    ∀ o, hour ∣ o → t < o → everyHour.Next t ≤ o := by
  intro t
  refine ⟨Dvd.intro_left _ rfl, everyHour_advancing t, ?_⟩
  rintro o ⟨k, rfl⟩ hlt
  show (t / (3600 * 1000000000) + 1) * (3600 * 1000000000) ≤ 3600 * 1000000000 * k
  have hlt' : t < 3600 * 1000000000 * k := hlt
  omega

theorem hour_dvd_whole_second : ∀ o, hour ∣ o → second ∣ o := by
  rintro o ⟨k, rfl⟩
  exact ⟨3600 * k, by unfold hour; ring⟩

/-- C1: for a schedule whose `Next t` is the earliest occurrence strictly after
`t`, all occurrences being on whole seconds, and a window with `since ≤ until`,
`scheduleTimeList` returns, and what it returns is strictly ascending, without
repetition, and holds exactly the occurrences `t` with `since ≤ t ≤ until`. -/
theorem scheduleTimeList_exact (sched : Schedule) (occ : Int → Prop) (since until_ : Int)
    (hnext : ∀ t, occ (sched.Next t) ∧ t < sched.Next t ∧
      ∀ o, occ o → t < o → sched.Next t ≤ o)
    (hsec : ∀ o, occ o → second ∣ o) (hw : since ≤ until_) :
    (∃ fuel l, scheduleTimeList fuel sched since until_ = some l) ∧
      ∀ fuel l, scheduleTimeList fuel sched since until_ = some l →
        l.Sorted (fun a b => a < b) ∧ l.Nodup ∧
          ∀ t, t ∈ l ↔ (occ t ∧ since ≤ t ∧ t ≤ until_) := by
  have hadv : ∀ t, t < sched.Next t := fun t => (hnext t).2.1
  refine ⟨scheduleTimeList_returns sched since until_ hadv, ?_⟩
  intro fuel l hl
  obtain ⟨w, rfl, hwalk, -⟩ := (scheduleTimeList_eq_some_iff _ _ _ _ _).mp hl
  have hp := hwalk.pairwise_of_advancing hadv
  have hmem := hwalk.mem_iff_of_earliest occ hnext
  have hb := boundary_eq_of_earliest sched occ hnext hsec since
  have hs : (boundary sched since ++ w).Sorted (fun a b => a < b) := by
    rcases boundary_subset sched since with h | ⟨h, -⟩
    · rw [h]
      exact (List.pairwise_cons.mp hp).2
    · rw [h]
      exact hp
  refine ⟨hs, List.Pairwise.imp (fun h => ne_of_lt h) hs, ?_⟩
  intro t
  rw [List.mem_append, hmem t]
  rcases boundary_subset sched since with h | ⟨h, hn⟩
  · have hno : ¬ occ since := by
      intro ho
      have : boundary sched since = [since] := if_pos (hb.mpr ho)
      rw [h] at this
      exact absurd this (by simp)
    rw [h]
    constructor
    · rintro (hf | ⟨ho, hlt, hle⟩)
      · simp at hf
      · exact ⟨ho, le_of_lt hlt, hle⟩
    · rintro ⟨ho, hle, hu⟩
      refine Or.inr ⟨ho, lt_of_le_of_ne hle ?_, hu⟩
      rintro rfl
      exact hno ho
  · rw [h]
    constructor
    · rintro (hf | ⟨ho, hlt, hle⟩)
      · have : t = since := by simpa using hf
        subst this
        exact ⟨hb.mp hn, le_rfl, hw⟩
      · exact ⟨ho, le_of_lt hlt, hle⟩
    · rintro ⟨ho, hle, hu⟩
      by_cases hts : t = since
      · exact Or.inl (by simp [hts])
      · exact Or.inr ⟨ho, lt_of_le_of_ne hle (Ne.symm hts), hu⟩

theorem scheduleTimeList_exact_witness :
    [t2020, t2020 + hour, t2020 + 2 * hour].Sorted (fun a b => a < b) ∧
      [t2020, t2020 + hour, t2020 + 2 * hour].Nodup ∧
      ∀ t, t ∈ [t2020, t2020 + hour, t2020 + 2 * hour] ↔
        (hour ∣ t ∧ t2020 ≤ t ∧ t ≤ t2020 + 2 * hour) :=
  (scheduleTimeList_exact everyHour (fun o => hour ∣ o) t2020 (t2020 + 2 * hour)
    everyHour_earliest hour_dvd_whole_second (by decide)).2 10 _ (by rfl)

/-! ## The map operations -/

theorem timetable.get_set (tt : timetable) (k : Int) (v : List timetableColumns) (k' : Int) :
    timetable.get (timetable.set tt k v) k' = if k = k' then v else timetable.get tt k' := by
  induction tt with
  | nil =>
    by_cases h : k = k' <;> simp [timetable.set, timetable.get, h]
  | cons p rest ih =>
    obtain ⟨k0, v0⟩ := p
    by_cases h : k0 = k
    · subst h
      by_cases h' : k0 = k' <;> simp [timetable.set, timetable.get, h']
    · by_cases h' : k = k'
      · subst h'
        simp [timetable.set, timetable.get, h, ih]
      · by_cases h'' : k0 = k'
        · subst h''
          simp [timetable.set, timetable.get, h, h']
        · simp [timetable.set, timetable.get, h, h', h'', ih]

theorem timetable.mem_keys_set (tt : timetable) (k : Int) (v : List timetableColumns)
    (k' : Int) :
    k' ∈ timetable.keys (timetable.set tt k v) ↔ k' = k ∨ k' ∈ timetable.keys tt := by
  induction tt with
  | nil => simp [timetable.set, timetable.keys]
  | cons p rest ih =>
    obtain ⟨k0, v0⟩ := p
    have ih' : k' ∈ List.map Prod.fst (timetable.set rest k v) ↔
        k' = k ∨ k' ∈ List.map Prod.fst rest := ih
    by_cases h : k0 = k
    · subst h
      simp [timetable.set, timetable.keys]
    · simp only [timetable.set, timetable.keys, h, if_false, List.map_cons, List.mem_cons, ih']
      tauto

theorem timetable.nodup_keys_set (tt : timetable) (k : Int) (v : List timetableColumns)
    (h : (timetable.keys tt).Nodup) : (timetable.keys (timetable.set tt k v)).Nodup := by
  induction tt with
  | nil => simp [timetable.set, timetable.keys]
  | cons p rest ih =>
    obtain ⟨k0, v0⟩ := p
    have hcons : k0 ∉ timetable.keys rest ∧ (timetable.keys rest).Nodup := by
      simpa [timetable.keys] using h
    by_cases hk : k0 = k
    · subst hk
      simpa [timetable.set, timetable.keys] using h
    · have hmem := timetable.mem_keys_set rest k v k0
      have hnd := ih hcons.2
      have hnot : k0 ∉ timetable.keys (timetable.set rest k v) := by
        rw [hmem]
        rintro (h1 | h1)
        · exact hk h1
        · exact hcons.1 h1
      simp only [timetable.set, hk, if_false]
      exact List.nodup_cons.mpr ⟨hnot, hnd⟩

/-! ## The loops of generateTimetable -/

theorem inner_spec (cronjob : CronJob) (times : List Int) (tt tt' : timetable)
    (h : generateTimetable.inner cronjob times tt = some tt') :
    (∀ k, timetable.get tt' k =
        timetable.get tt k ++ List.replicate (times.count k) (columnsOf cronjob)) ∧
      (∀ k, k ∈ timetable.keys tt' ↔ k ∈ timetable.keys tt ∨ k ∈ times) ∧
      ((timetable.keys tt).Nodup → (timetable.keys tt').Nodup) := by
  induction times generalizing tt with
  | nil =>
    simp only [generateTimetable.inner, Option.some.injEq] at h
    subst h
    simp
  | cons t rest ih =>
    cases hs : cronjob.Suspend with
    | none => simp [generateTimetable.inner, hs] at h
    | some b =>
      simp only [generateTimetable.inner, hs] at h
      obtain ⟨hget, hkeys, hnd⟩ := ih _ h
      have hcol : columnsOf cronjob =
          ⟨cronjob.Namespace, cronjob.Name, cronjob.Schedule, b⟩ := by
        simp [columnsOf, hs]
      refine ⟨?_, ?_, ?_⟩
      · intro k
        rw [hget k, timetable.get_set, ← hcol]
        by_cases hk : t = k
        · subst hk
          simp [List.count_cons, List.replicate_succ]
        · have hk' : ¬ (t == k) = true := by simpa using hk
          simp [List.count_cons, hk, hk']
      · intro k
        rw [hkeys k, timetable.mem_keys_set, List.mem_cons]
        tauto
      · intro hn
        exact hnd (timetable.nodup_keys_set _ _ _ hn)

theorem inner_returns (cronjob : CronJob) (times : List Int) (tt : timetable)
    (hs : cronjob.Suspend ≠ none) : ∃ tt', generateTimetable.inner cronjob times tt = some tt' := by
  induction times generalizing tt with
  | nil => exact ⟨tt, rfl⟩
  | cons t rest ih =>
    cases hb : cronjob.Suspend with
    | none => exact absurd hb hs
    | some b =>
      simp only [generateTimetable.inner, hb]
      exact ih _

theorem scheduleTimeList_nodup (fuel : Nat) (sched : Schedule) (since until_ : Int)
    (l : List Int) (h : scheduleTimeList fuel sched since until_ = some l) : l.Nodup := by
  obtain ⟨w, rfl, hwalk, -⟩ := (scheduleTimeList_eq_some_iff _ _ _ _ _).mp h
  rcases boundary_subset sched since with hb | ⟨hb, -⟩
  · rw [hb]
    exact hwalk.nodup
  · rw [hb]
    exact List.nodup_cons.mpr ⟨hwalk.not_mem_start, hwalk.nodup⟩

theorem scheduleTimeList_mono (fuel fuel' : Nat) (sched : Schedule) (since until_ : Int)
    (l : List Int) (h : scheduleTimeList fuel sched since until_ = some l) (hle : fuel ≤ fuel') :
    scheduleTimeList fuel' sched since until_ = some l := by
  obtain ⟨w, hl, hwalk, hlen⟩ := (scheduleTimeList_eq_some_iff _ _ _ _ _).mp h
  exact (scheduleTimeList_eq_some_iff _ _ _ _ _).mpr ⟨w, hl, hwalk, lt_of_lt_of_le hlen hle⟩

theorem outer_success (ParseStandard : String → Except String Schedule) (fuel : Nat)
    (since until_ : Int) (cronjobs : List CronJob) (tt tt' : timetable)
    (h : generateTimetable.outer ParseStandard fuel since until_ cronjobs tt =
      some (.returned (some tt', none))) :
    (∀ k, timetable.get tt' k = timetable.get tt k ++
        (cronjobs.filter
          (fun cj => decide (k ∈ jobTimes ParseStandard fuel since until_ cj))).map columnsOf) ∧
      (∀ k, k ∈ timetable.keys tt' ↔
        k ∈ timetable.keys tt ∨
          ∃ cj ∈ cronjobs, k ∈ jobTimes ParseStandard fuel since until_ cj) ∧
      ((timetable.keys tt).Nodup → (timetable.keys tt').Nodup) := by
  induction cronjobs generalizing tt with
  | nil =>
    simp only [generateTimetable.outer, Option.some.injEq, Outcome.returned.injEq,
      Prod.mk.injEq, and_true] at h
    subst h
    simp
  | cons cj rest ih =>
    unfold generateTimetable.outer at h
    cases hP : ParseStandard cj.Schedule with
    | error err => simp [hP] at h
    | ok sched =>
      simp only [hP] at h
      cases hT : scheduleTimeList fuel sched since until_ with
      | none => simp [hT] at h
      | some times =>
        simp only [hT] at h
        cases hI : generateTimetable.inner cj times tt with
        | none => simp [hI] at h
        | some tt1 =>
          simp only [hI] at h
          obtain ⟨hget, hkeys, hnd⟩ := ih tt1 h
          obtain ⟨iget, ikeys, ind⟩ := inner_spec cj times tt tt1 hI
          have hjt : jobTimes ParseStandard fuel since until_ cj = times := by
            simp [jobTimes, hP, hT]
          have hnodup := scheduleTimeList_nodup fuel sched since until_ times hT
          refine ⟨?_, ?_, fun hn => hnd (ind hn)⟩
          · intro k
            rw [hget k, iget k, List.filter_cons, hjt]
            by_cases hk : k ∈ times
            · have hc : times.count k = 1 := List.count_eq_one_of_mem hnodup hk
              simp [hk, hc]
            · have hc : times.count k = 0 := List.count_eq_zero_of_not_mem hk
              simp [hk, hc]
          · intro k
            rw [hkeys k, ikeys k]
            simp only [List.mem_cons, exists_eq_or_imp, hjt]
            tauto

theorem outer_outcome (ParseStandard : String → Except String Schedule) (fuel : Nat)
    (since until_ : Int) (cronjobs : List CronJob) (tt : timetable)
    (hsusp : ∀ cj ∈ cronjobs, cj.Suspend ≠ none)
    (o : Outcome (Option timetable × Option String))
    (h : generateTimetable.outer ParseStandard fuel since until_ cronjobs tt = some o) :
    match cronjobs.find? (fun cj => !parses ParseStandard cj) with
    | some cj => ∃ err, ParseStandard cj.Schedule = .error err ∧
        o = .returned (none, some (parseErrorMessage cj err))
    | none => ∃ tt', o = .returned (some tt', none) := by
  induction cronjobs generalizing tt with
  | nil =>
    simp only [generateTimetable.outer, Option.some.injEq] at h
    exact ⟨tt, h.symm⟩
  | cons cj rest ih =>
    unfold generateTimetable.outer at h
    cases hP : ParseStandard cj.Schedule with
    | error err =>
      simp only [hP, Option.some.injEq] at h
      have hp : parses ParseStandard cj = false := by simp [parses, hP]
      simp only [List.find?_cons, hp, Bool.not_false]
      exact ⟨err, hP, h.symm⟩
    | ok sched =>
      simp only [hP] at h
      have hp : parses ParseStandard cj = true := by simp [parses, hP]
      simp only [List.find?_cons, hp, Bool.not_true]
      cases hT : scheduleTimeList fuel sched since until_ with
      | none => simp [hT] at h
      | some times =>
        simp only [hT] at h
        obtain ⟨tt1, hI⟩ := inner_returns cj times tt (hsusp cj (List.mem_cons_self _ _))
        simp only [hI] at h
        exact ih tt1 (fun c hc => hsusp c (List.mem_cons_of_mem _ hc)) h

theorem outer_returns (ParseStandard : String → Except String Schedule)
    (since until_ : Int) (cronjobs : List CronJob)
    (hsusp : ∀ cj ∈ cronjobs, cj.Suspend ≠ none)
    (hadv : ∀ cj ∈ cronjobs, ∀ s, ParseStandard cj.Schedule = .ok s → ∀ t, t < s.Next t) :
    ∃ N, ∀ fuel, N ≤ fuel → ∀ tt, ∃ o,
      generateTimetable.outer ParseStandard fuel since until_ cronjobs tt = some o := by
  induction cronjobs with
  | nil => exact ⟨0, fun fuel _ tt => ⟨_, rfl⟩⟩
  | cons cj rest ih =>
    obtain ⟨N, hN⟩ := ih (fun c hc => hsusp c (List.mem_cons_of_mem _ hc))
      (fun c hc => hadv c (List.mem_cons_of_mem _ hc))
    cases hP : ParseStandard cj.Schedule with
    | error err =>
      refine ⟨0, fun fuel _ tt =>
        ⟨.returned (none, some (parseErrorMessage cj err)), ?_⟩⟩
      unfold generateTimetable.outer
      simp only [hP]
    | ok sched =>
      obtain ⟨f0, l, hl⟩ := scheduleTimeList_returns sched since until_
        (hadv cj (List.mem_cons_self _ _) sched hP)
      refine ⟨max f0 N, fun fuel hfuel tt => ?_⟩
      have hT := scheduleTimeList_mono f0 fuel sched since until_ l hl
        (le_trans (le_max_left _ _) hfuel)
      obtain ⟨tt1, hI⟩ := inner_returns cj l tt (hsusp cj (List.mem_cons_self _ _))
      obtain ⟨o, ho⟩ := hN fuel (le_trans (le_max_right _ _) hfuel) tt1
      refine ⟨o, ?_⟩
      unfold generateTimetable.outer
      simp only [hP, hT, hI]
      exact ho

theorem outer_success_times (ParseStandard : String → Except String Schedule) (fuel : Nat)
    (since until_ : Int) (cronjobs : List CronJob) (tt tt' : timetable)
    (h : generateTimetable.outer ParseStandard fuel since until_ cronjobs tt =
      some (.returned (some tt', none))) :
    ∀ cj ∈ cronjobs, ∃ sched, ParseStandard cj.Schedule = .ok sched ∧
      scheduleTimeList fuel sched since until_ =
        some (jobTimes ParseStandard fuel since until_ cj) := by
  induction cronjobs generalizing tt with
  | nil => simp
  | cons cj rest ih =>
    unfold generateTimetable.outer at h
    cases hP : ParseStandard cj.Schedule with
    | error err => simp [hP] at h
    | ok sched =>
      simp only [hP] at h
      cases hT : scheduleTimeList fuel sched since until_ with
      | none => simp [hT] at h
      | some times =>
        simp only [hT] at h
        cases hI : generateTimetable.inner cj times tt with
        | none => simp [hI] at h
        | some tt1 =>
          simp only [hI] at h
          intro c hc
          rcases List.mem_cons.mp hc with rfl | hc
          · exact ⟨sched, hP, by simp [jobTimes, hP, hT]⟩
          · exact ih tt1 h c hc

theorem everyParsed_advancing : ∀ spec s, fixtureParse spec = .ok s → ∀ t, t < s.Next t := by
  intro spec s h
  unfold fixtureParse at h
  split at h
  · cases h
    exact everyHour_advancing
  · split at h
    · cases h
      exact everyMinute_advancing
    · cases h

/-! ## Claims on generateTimetable -/

/-- C2: when every schedule expression parses and every `Suspend` is set, a
call of `generateTimetable` that ends returns a timetable and no error; the
timetable has at key `t` the entries of exactly the jobs whose
`scheduleTimeList` contains `t`, one per job, in input order, and `t` is a key
iff some job occurs at `t`. When the parsed schedules strictly advance, the
call does end. -/
theorem generateTimetable_entries (ParseStandard : String → Except String Schedule)
    (cronjobs : List CronJob) (since until_ : Int)
    (hparse : ∀ cj ∈ cronjobs, parses ParseStandard cj = true)
    (hsusp : ∀ cj ∈ cronjobs, cj.Suspend ≠ none) :
    (∀ fuel o, generateTimetable ParseStandard fuel cronjobs since until_ = some o →
      ∃ tt, o = .returned (some tt, none) ∧ (timetable.keys tt).Nodup ∧
        (∀ cj ∈ cronjobs, ∃ sched, ParseStandard cj.Schedule = .ok sched ∧
          scheduleTimeList fuel sched since until_ =
            some (jobTimes ParseStandard fuel since until_ cj)) ∧
        ∀ t,
          timetable.get tt t = (cronjobs.filter (fun cj =>
            decide (t ∈ jobTimes ParseStandard fuel since until_ cj))).map columnsOf ∧
          (t ∈ timetable.keys tt ↔
            ∃ cj ∈ cronjobs, t ∈ jobTimes ParseStandard fuel since until_ cj)) ∧
      ((∀ cj ∈ cronjobs, ∀ s, ParseStandard cj.Schedule = .ok s → ∀ t, t < s.Next t) →
        ∃ fuel o, generateTimetable ParseStandard fuel cronjobs since until_ = some o) := by
  constructor
  · intro fuel o h
    have hout := outer_outcome ParseStandard fuel since until_ cronjobs [] hsusp o h
    have hfind : cronjobs.find? (fun cj => !parses ParseStandard cj) = none := by
      rw [List.find?_eq_none]
      intro cj hcj
      simp [hparse cj hcj]
    rw [hfind] at hout
    obtain ⟨tt, rfl⟩ := hout
    obtain ⟨hget, hkeys, hnd⟩ := outer_success ParseStandard fuel since until_ cronjobs [] tt h
    refine ⟨tt, rfl, hnd (by simp [timetable.keys]), ?_, ?_⟩
    · exact outer_success_times ParseStandard fuel since until_ cronjobs [] tt h
    · intro t
      refine ⟨?_, ?_⟩
      · rw [hget t]
        simp [timetable.get]
      · rw [hkeys t]
        simp [timetable.keys]
  · intro hadv
    obtain ⟨N, hN⟩ := outer_returns ParseStandard since until_ cronjobs hsusp hadv
    obtain ⟨o, ho⟩ := hN N le_rfl []
    exact ⟨N, o, ho⟩

theorem generateTimetable_entries_witness :
    ∃ tt, generateTimetable fixtureParse 10 fixtureJobs t2020 (t2020 + 2 * minute) =
        some (.returned (some tt, none)) ∧
      timetable.get tt t2020 =
        [⟨"foo", "bar", "0 * * * *", false⟩, ⟨"baz", "qux", "* * * * *", true⟩] ∧
      timetable.get tt (t2020 + minute) = [⟨"baz", "qux", "* * * * *", true⟩] := by
  obtain ⟨tt, ho, -, -, h⟩ :=
    (generateTimetable_entries fixtureParse fixtureJobs t2020 (t2020 + 2 * minute)
      (by decide) (by decide)).1 10 (.returned (some fixtureTimetable, none)) (by rfl)
  exact ⟨tt, ho ▸ rfl, (h t2020).1.trans (by rfl), (h (t2020 + minute)).1.trans (by rfl)⟩

/-! ## Claims on the window setup of run -/

theorem utcDay_range (t : Int) : 1 ≤ utcDay t ∧ utcDay t ≤ 31 := by
  unfold utcDay
  simp only [day, hour, second]
  omega

/-- C7, the code at the failing input: with `--since` given, parsed to an
instant after the zero time, and `--until` omitted, the window setup of `run`
returns the error "Since time is newer than until time" whatever the current
time is; the window `(since, now)` is never produced. -/
theorem run_window_since_only_rejected (timeParse : String → String → Except String Int)
    (Day : Loc → Int → Int) (now : Int) (sinceFlag : String) (s : Int)
    (hsf : sinceFlag ≠ "")
    (hs : parseAbsoluteTime timeParse sinceFlag Loc.display = .ok (s, Loc.display))
    (hpos : 0 < s) :
    run.window timeParse Day now sinceFlag "" = .error ConfigError.sinceNewer := by
  simp [run.window, hsf, hs, hpos]

theorem run_window_since_only_rejected_witness :
    run.window fixtureTimeParse (fun _ => utcDay) (t2020 + 1000 * day) "2020-01-01" "" =
      .error ConfigError.sinceNewer :=
  run_window_since_only_rejected fixtureTimeParse (fun _ => utcDay) (t2020 + 1000 * day)
    "2020-01-01" t2020 (by decide) (by rfl) (by decide)

/-- C8, the code at the failing input: with `--since` omitted and `--until`
given, parsed to an instant after the zero time and before the current time,
the window setup of `run` returns no error and hands on the window
`(now, until)`, whose `since` is after its `until`. -/
theorem run_window_until_only_past (timeParse : String → String → Except String Int)
    (Day : Loc → Int → Int) (now : Int) (untilFlag : String) (u : Int)
    (hDay : ∀ loc t, 1 ≤ Day loc t ∧ Day loc t ≤ 31)
    (huf : untilFlag ≠ "")
    (hu : parseAbsoluteTime timeParse untilFlag Loc.display = .ok (u, Loc.display))
    (hpos : 0 < u) (hpast : u < now) :
    run.window timeParse Day now "" untilFlag = .ok (now, u) ∧ ¬ now ≤ u := by
  have h1 := hDay Loc.display u
  have h2 := hDay Loc.local_ now
  have hne : ¬ u = 0 := by omega
  have hd : ¬ Day Loc.display u - Day Loc.local_ now > 365 * 5 := by omega
  have hlt : ¬ u < 0 := by omega
  refine ⟨?_, by omega⟩
  simp only [run.window, huf, hu, ne_eq, not_true_eq_false, not_false_eq_true, if_true,
    if_false, hlt, hne, and_false, and_true, hd]

theorem run_window_until_only_past_witness :
    run.window fixtureTimeParse (fun _ => utcDay) (t2020 + 1000 * day) "" "2020-01-01" =
        .ok (t2020 + 1000 * day, t2020) ∧ ¬ t2020 + 1000 * day ≤ t2020 :=
  run_window_until_only_past fixtureTimeParse (fun _ => utcDay) (t2020 + 1000 * day)
    "2020-01-01" t2020 (fun _ t => utcDay_range t) (by decide) (by rfl) (by decide) (by decide)

/-- C9, the code at the failing input: with both flags given, `since` after
the zero time and `until` more than `365 * 5` days after `since`, the window
setup of `run` returns no error and hands on `(since, until)`: the difference
it compares with `365 * 5` is one of days of the month, at most 30. -/
theorem run_window_over_five_years_accepted (timeParse : String → String → Except String Int)
    (Day : Loc → Int → Int) (now : Int) (sinceFlag untilFlag : String) (s u : Int)
    (hDay : ∀ loc t, 1 ≤ Day loc t ∧ Day loc t ≤ 31)
    (hsf : sinceFlag ≠ "") (huf : untilFlag ≠ "")
    (hs : parseAbsoluteTime timeParse sinceFlag Loc.display = .ok (s, Loc.display))
    (hu : parseAbsoluteTime timeParse untilFlag Loc.display = .ok (u, Loc.display))
    (hpos : 0 < s) (hlong : s + 365 * 5 * day < u) :
    run.window timeParse Day now sinceFlag untilFlag = .ok (s, u) := by
  have h1 := hDay Loc.display u
  have h2 := hDay Loc.display s
  have hdaypos : 0 < day := by decide
  have hsne : ¬ s = 0 := by omega
  have hune : ¬ u = 0 := by omega
  have hd : ¬ Day Loc.display u - Day Loc.display s > 365 * 5 := by omega
  have hlt : ¬ u < s := by omega
  simp only [run.window, hsf, huf, hs, hu, ne_eq, not_false_eq_true, if_true, if_false, hlt,
    hsne, hune, and_false, false_and, hd]

theorem run_window_over_five_years_accepted_witness :
    run.window fixtureTimeParse (fun _ => utcDay) (t2020 + 1000 * day) "2000-01-01"
      "2020-01-01" = .ok (t2000, t2020) :=
  run_window_over_five_years_accepted fixtureTimeParse (fun _ => utcDay) (t2020 + 1000 * day)
    "2000-01-01" "2020-01-01" t2000 t2020 (fun _ t => utcDay_range t) (by decide) (by decide)
    (by rfl) (by rfl) (by decide) (by decide)

/-! ## Claims on the key sequence of run -/

theorem foldl_append_keys (tt : timetable) (init : List Int) :
    tt.foldl (fun keyTimes kv => keyTimes ++ [kv.1]) init = init ++ timetable.keys tt := by
  induction tt generalizing init with
  | nil => simp [timetable.keys]
  | cons p rest ih =>
    have ih' := ih (init ++ [p.1])
    simp only [timetable.keys] at ih'
    simp only [List.foldl_cons, ih', timetable.keys, List.map_cons, List.append_assoc,
      List.singleton_append]

/-- C10, the code on every timetable and at the failing input: `keyTimes` is
made with length `len(tt)`, so the appended keys come after `len(tt)` zero
instants; sorted, the sequence has `2 * len(tt)` elements, the keys of `tt`
and `len(tt)` times the zero instant. For the three keys of `fixtureTimetable`
it has six elements. -/
theorem run_keyTimes_zero_padded (tt : timetable) :
    (run.keyTimes tt).Perm (List.replicate tt.length 0 ++ timetable.keys tt) ∧
      (run.keyTimes tt).Sorted (fun a b => a ≤ b) ∧
      (run.keyTimes tt).length = 2 * tt.length ∧
      run.keyTimes fixtureTimetable = [0, 0, 0, t2020, t2020 + minute, t2020 + 2 * minute] := by
  have hperm : (run.keyTimes tt).Perm (List.replicate tt.length 0 ++ timetable.keys tt) := by
    unfold run.keyTimes
    simp only [foldl_append_keys]
    exact List.perm_insertionSort _ _
  refine ⟨hperm, ?_, ?_, by rfl⟩
  · unfold run.keyTimes
    exact List.sorted_insertionSort _ _
  · rw [hperm.length_eq]
    simp [timetable.keys]
    omega

/-! ## Claims on the calls of Next -/

theorem loopCalls_eq_some_iff (sched : Schedule) (until_ : Int) (fuel : Nat) (t : Int)
    (ret : List Int) (calls : Nat) (r : List Int) (c : Nat) :
    scheduleTimeList.loopCalls sched until_ fuel t ret calls = some (r, c) ↔
      ∃ l, r = ret ++ l ∧ IsWalk sched until_ t l ∧ l.length < fuel ∧
        c = calls + l.length + 1 := by
  induction fuel generalizing t ret calls with
  | zero => simp [scheduleTimeList.loopCalls]
  | succ n ih =>
    unfold scheduleTimeList.loopCalls
    by_cases h : until_ < sched.Next t
    · simp only [h, if_true, Option.some.injEq, Prod.mk.injEq]
      constructor
      · rintro ⟨hr, hc⟩
        exact ⟨[], by simp [hr], h, Nat.succ_pos n, by simp [hc]⟩
      · rintro ⟨l, hl, hw, -, hc⟩
        cases l with
        | nil => exact ⟨by simp [hl], by simpa using hc.symm⟩
        | cons x xs =>
          obtain ⟨hx, hle, -⟩ := hw
          exact absurd (hx ▸ hle) (not_le.mpr h)
    · simp only [h, if_false]
      rw [ih]
      constructor
      · rintro ⟨l, hl, hw, hlen, hc⟩
        refine ⟨sched.Next t :: l, by simpa using hl, ⟨rfl, not_lt.mp h, hw⟩,
          by simpa using hlen, ?_⟩
        simp only [List.length_cons]
        omega
      · rintro ⟨l, hl, hw, hlen, hc⟩
        cases l with
        | nil => exact absurd hw h
        | cons x xs =>
          obtain ⟨hx, -, hw⟩ := hw
          subst hx
          refine ⟨xs, by simpa using hl, hw, by simpa using hlen, ?_⟩
          simp only [List.length_cons] at hc
          omega

/-- C12: for a schedule whose `Next` strictly advances, the forward walk of
`scheduleTimeList` ends, the loop with the call counter returns what the loop
returns, and the number of calls of `Next` is the number of instants appended
plus one. -/
theorem forward_walk_calls (sched : Schedule) (since until_ : Int) (ret : List Int)
    (hadv : ∀ t, t < sched.Next t) :
    (∃ fuel r c, scheduleTimeList.loopCalls sched until_ fuel since ret 0 = some (r, c)) ∧
      (∀ fuel r, scheduleTimeList.loop sched until_ fuel since ret = some r ↔
        ∃ c, scheduleTimeList.loopCalls sched until_ fuel since ret 0 = some (r, c)) ∧
      ∀ fuel r c, scheduleTimeList.loopCalls sched until_ fuel since ret 0 = some (r, c) →
        ∃ appended, r = ret ++ appended ∧ c = appended.length + 1 := by
  refine ⟨?_, ?_, ?_⟩
  · obtain ⟨w, hw⟩ := IsWalk.exists_of_advancing sched until_ hadv since
    exact ⟨w.length + 1, ret ++ w, 0 + w.length + 1,
      (loopCalls_eq_some_iff _ _ _ _ _ _ _ _).mpr ⟨w, rfl, hw, Nat.lt_succ_self _, rfl⟩⟩
  · intro fuel r
    rw [loop_eq_some_iff]
    constructor
    · rintro ⟨l, hl, hw, hlen⟩
      exact ⟨0 + l.length + 1, (loopCalls_eq_some_iff _ _ _ _ _ _ _ _).mpr ⟨l, hl, hw, hlen, rfl⟩⟩
    · rintro ⟨c, hc⟩
      obtain ⟨l, hl, hw, hlen, -⟩ := (loopCalls_eq_some_iff _ _ _ _ _ _ _ _).mp hc
      exact ⟨l, hl, hw, hlen⟩
  · intro fuel r c h
    obtain ⟨l, hl, -, -, hc⟩ := (loopCalls_eq_some_iff _ _ _ _ _ _ _ _).mp h
    exact ⟨l, hl, by omega⟩

theorem forward_walk_calls_witness :
    scheduleTimeList.loopCalls everyHour (t2020 + 2 * hour) 10 t2020 [t2020] 0 =
        some ([t2020, t2020 + hour, t2020 + 2 * hour], 3) ∧
      ∃ appended, [t2020, t2020 + hour, t2020 + 2 * hour] = [t2020] ++ appended ∧
        3 = appended.length + 1 :=
  ⟨by rfl, (forward_walk_calls everyHour t2020 (t2020 + 2 * hour) [t2020]
    everyHour_advancing).2.2 10 _ _ (by rfl)⟩

/-! ## The nil dereference and the order of the jobs -/

theorem inner_eq_none_iff (cronjob : CronJob) (times : List Int) (tt : timetable) :
    generateTimetable.inner cronjob times tt = none ↔ times ≠ [] ∧ cronjob.Suspend = none := by
  cases times with
  | nil => simp [generateTimetable.inner]
  | cons t rest =>
    cases hs : cronjob.Suspend with
    | none => simp [generateTimetable.inner, hs]
    | some b =>
      obtain ⟨tt', h⟩ := inner_returns cronjob (t :: rest) tt (by simp [hs])
      simp [h]

theorem outer_success_iff (ParseStandard : String → Except String Schedule) (fuel : Nat)
    (since until_ : Int) (cronjobs : List CronJob) (tt : timetable) :
    (∃ tt', generateTimetable.outer ParseStandard fuel since until_ cronjobs tt =
        some (.returned (some tt', none))) ↔
      ∀ cj ∈ cronjobs, ∃ sched times, ParseStandard cj.Schedule = .ok sched ∧
        scheduleTimeList fuel sched since until_ = some times ∧
        (times ≠ [] → cj.Suspend ≠ none) := by
  induction cronjobs generalizing tt with
  | nil => simp [generateTimetable.outer]
  | cons cj rest ih =>
    unfold generateTimetable.outer
    simp only [List.mem_cons, forall_eq_or_imp]
    cases hP : ParseStandard cj.Schedule with
    | error err => simp
    | ok sched =>
      cases hT : scheduleTimeList fuel sched since until_ with
      | none => simp [hT]
      | some times =>
        cases hI : generateTimetable.inner cj times tt with
        | none =>
          have hn := (inner_eq_none_iff cj times tt).mp hI
          simp only [hT, hI]
          constructor
          · rintro ⟨tt', h⟩
            cases h
          · rintro ⟨⟨sched', times', hs', ht', hsusp⟩, -⟩
            cases hs'
            rw [hT] at ht'
            cases ht'
            exact absurd hn.2 (hsusp hn.1)
        | some tt1 =>
          simp only [hT, hI]
          rw [ih tt1]
          have hn : ¬ (times ≠ [] ∧ cj.Suspend = none) := by
            intro hcon
            rw [(inner_eq_none_iff cj times tt).mpr hcon] at hI
            cases hI
          constructor
          · intro hrest
            exact ⟨⟨sched, times, rfl, hT, fun h1 h2 => hn ⟨h1, h2⟩⟩, hrest⟩
          · rintro ⟨-, hrest⟩
            exact hrest

theorem outer_parsed_outcome (ParseStandard : String → Except String Schedule) (fuel : Nat)
    (since until_ : Int) (cronjobs : List CronJob) (tt : timetable)
    (hparse : ∀ cj ∈ cronjobs, parses ParseStandard cj = true)
    (o : Outcome (Option timetable × Option String))
    (h : generateTimetable.outer ParseStandard fuel since until_ cronjobs tt = some o) :
    (o = .nilDeref ∧ ∃ cj ∈ cronjobs,
        jobTimes ParseStandard fuel since until_ cj ≠ [] ∧ cj.Suspend = none) ∨
      ((∃ tt', o = .returned (some tt', none)) ∧ ∀ cj ∈ cronjobs,
        jobTimes ParseStandard fuel since until_ cj ≠ [] → cj.Suspend ≠ none) := by
  induction cronjobs generalizing tt with
  | nil =>
    simp only [generateTimetable.outer, Option.some.injEq] at h
    exact Or.inr ⟨⟨tt, h.symm⟩, by simp⟩
  | cons cj rest ih =>
    unfold generateTimetable.outer at h
    cases hP : ParseStandard cj.Schedule with
    | error err =>
      have := hparse cj (List.mem_cons_self _ _)
      simp [parses, hP] at this
    | ok sched =>
      simp only [hP] at h
      cases hT : scheduleTimeList fuel sched since until_ with
      | none => simp [hT] at h
      | some times =>
        simp only [hT] at h
        have hjt : jobTimes ParseStandard fuel since until_ cj = times := by
          simp [jobTimes, hP, hT]
        cases hI : generateTimetable.inner cj times tt with
        | none =>
          simp only [hI, Option.some.injEq] at h
          have hn := (inner_eq_none_iff cj times tt).mp hI
          exact Or.inl ⟨h.symm, cj, List.mem_cons_self _ _, by rw [hjt]; exact hn.1, hn.2⟩
        | some tt1 =>
          simp only [hI] at h
          have hn : ¬ (times ≠ [] ∧ cj.Suspend = none) := by
            intro hcon
            rw [(inner_eq_none_iff cj times tt).mpr hcon] at hI
            cases hI
          rcases ih tt1 (fun c hc => hparse c (List.mem_cons_of_mem _ hc)) h with
            ⟨ho, c, hc, hc1, hc2⟩ | ⟨ho, hall⟩
          · exact Or.inl ⟨ho, c, List.mem_cons_of_mem _ hc, hc1, hc2⟩
          · refine Or.inr ⟨ho, ?_⟩
            intro c hc
            rcases List.mem_cons.mp hc with rfl | hc
            · rw [hjt]
              exact fun h1 h2 => hn ⟨h1, h2⟩
            · exact hall c hc

theorem outer_terminates (ParseStandard : String → Except String Schedule)
    (since until_ : Int) (cronjobs : List CronJob)
    (hadv : ∀ cj ∈ cronjobs, ∀ s, ParseStandard cj.Schedule = .ok s → ∀ t, t < s.Next t) :
    ∃ N, ∀ fuel, N ≤ fuel → ∀ tt, ∃ o,
      generateTimetable.outer ParseStandard fuel since until_ cronjobs tt = some o := by
  induction cronjobs with
  | nil => exact ⟨0, fun fuel _ tt => ⟨_, rfl⟩⟩
  | cons cj rest ih =>
    obtain ⟨N, hN⟩ := ih (fun c hc => hadv c (List.mem_cons_of_mem _ hc))
    cases hP : ParseStandard cj.Schedule with
    | error err =>
      refine ⟨0, fun fuel _ tt =>
        ⟨.returned (none, some (parseErrorMessage cj err)), ?_⟩⟩
      unfold generateTimetable.outer
      simp only [hP]
    | ok sched =>
      obtain ⟨f0, l, hl⟩ := scheduleTimeList_returns sched since until_
        (hadv cj (List.mem_cons_self _ _) sched hP)
      refine ⟨max f0 N, fun fuel hfuel tt => ?_⟩
      have hT := scheduleTimeList_mono f0 fuel sched since until_ l hl
        (le_trans (le_max_left _ _) hfuel)
      cases hI : generateTimetable.inner cj l tt with
      | none =>
        refine ⟨.nilDeref, ?_⟩
        unfold generateTimetable.outer
        simp only [hP, hT, hI]
      | some tt1 =>
        obtain ⟨o, ho⟩ := hN fuel (le_trans (le_max_right _ _) hfuel) tt1
        refine ⟨o, ?_⟩
        unfold generateTimetable.outer
        simp only [hP, hT, hI]
        exact ho

/-- C13: for a list whose schedule expressions all parse and a permutation of
it, when `generateTimetable` returns a timetable for the list it returns one
for the permutation over the same window, the two have the same keys, and at
each key the entries of one are a permutation of the entries of the other.
When every `Suspend` is set and the parsed schedules strictly advance,
`generateTimetable` does return a timetable for the list. -/
theorem generateTimetable_perm (ParseStandard : String → Except String Schedule)
    (cronjobs cronjobs' : List CronJob) (since until_ : Int)
    (hperm : cronjobs.Perm cronjobs')
    (hparse : ∀ cj ∈ cronjobs, parses ParseStandard cj = true) :
    (∀ fuel tt, generateTimetable ParseStandard fuel cronjobs since until_ =
        some (.returned (some tt, none)) →
      ∃ tt', generateTimetable ParseStandard fuel cronjobs' since until_ =
          some (.returned (some tt', none)) ∧
        ∀ t, (t ∈ timetable.keys tt ↔ t ∈ timetable.keys tt') ∧
          (timetable.get tt t).Perm (timetable.get tt' t)) ∧
      ((∀ cj ∈ cronjobs, cj.Suspend ≠ none) →
        (∀ cj ∈ cronjobs, ∀ s, ParseStandard cj.Schedule = .ok s → ∀ t, t < s.Next t) →
        ∃ fuel tt, generateTimetable ParseStandard fuel cronjobs since until_ =
          some (.returned (some tt, none))) := by
  constructor
  · intro fuel tt h
    have hcond := (outer_success_iff ParseStandard fuel since until_ cronjobs []).mp ⟨tt, h⟩
    obtain ⟨tt', h'⟩ := (outer_success_iff ParseStandard fuel since until_ cronjobs' []).mpr
      (fun cj hcj => hcond cj (hperm.mem_iff.mpr hcj))
    refine ⟨tt', h', ?_⟩
    obtain ⟨hget, hkeys, -⟩ := outer_success ParseStandard fuel since until_ cronjobs [] tt h
    obtain ⟨hget', hkeys', -⟩ := outer_success ParseStandard fuel since until_ cronjobs' [] tt' h'
    intro t
    constructor
    · rw [hkeys t, hkeys' t]
      simp only [timetable.keys, List.map_nil, List.not_mem_nil, false_or]
      constructor
      · rintro ⟨cj, hcj, ht⟩
        exact ⟨cj, hperm.mem_iff.mp hcj, ht⟩
      · rintro ⟨cj, hcj, ht⟩
        exact ⟨cj, hperm.mem_iff.mpr hcj, ht⟩
    · rw [hget t, hget' t]
      simp only [timetable.get, List.nil_append]
      exact (hperm.filter _).map _
  · intro hsusp hadv
    obtain ⟨N, hN⟩ := outer_returns ParseStandard since until_ cronjobs hsusp hadv
    obtain ⟨o, ho⟩ := hN N le_rfl []
    have hout := outer_outcome ParseStandard N since until_ cronjobs [] hsusp o ho
    have hfind : cronjobs.find? (fun cj => !parses ParseStandard cj) = none := by
      rw [List.find?_eq_none]
      intro cj hcj
      simp [hparse cj hcj]
    rw [hfind] at hout
    obtain ⟨tt, rfl⟩ := hout
    exact ⟨N, tt, ho⟩

theorem generateTimetable_perm_witness :
    ∃ tt', generateTimetable fixtureParse 10 fixtureJobsSwapped t2020 (t2020 + 2 * minute) =
        some (.returned (some tt', none)) ∧
      ∀ t, (t ∈ timetable.keys fixtureTimetable ↔ t ∈ timetable.keys tt') ∧
        (timetable.get fixtureTimetable t).Perm (timetable.get tt' t) :=
  (generateTimetable_perm fixtureParse fixtureJobs fixtureJobsSwapped t2020 (t2020 + 2 * minute)
    (List.Perm.swap _ _ _) (by decide)).1 10 fixtureTimetable (by rfl)

/-! ## Claims on the rows of run -/

theorem foldl_rows_inner (k : Int) (es : List timetableColumns)
    (w : List (Int × timetableColumns)) :
    es.foldl (fun w ttc => w ++ [(k, ttc)]) w = w ++ es.map (fun ttc => (k, ttc)) := by
  induction es generalizing w with
  | nil => simp
  | cons e rest ih => simp [ih]

theorem foldl_rows_outer (tt : timetable) (ks : List Int) (w : List (Int × timetableColumns)) :
    ks.foldl (fun w keyTime =>
        (timetable.get tt keyTime).foldl (fun w ttc => w ++ [(keyTime, ttc)]) w) w =
      w ++ ks.flatMap (fun k => (timetable.get tt k).map (fun ttc => (k, ttc))) := by
  induction ks generalizing w with
  | nil => simp
  | cons k rest ih =>
    simp only [List.foldl_cons, List.flatMap_cons]
    rw [ih, foldl_rows_inner, List.append_assoc]

theorem timetable.get_of_not_mem_keys (tt : timetable) (k : Int)
    (h : k ∉ timetable.keys tt) : timetable.get tt k = [] := by
  induction tt with
  | nil => rfl
  | cons p rest ih =>
    obtain ⟨k0, v0⟩ := p
    have hk : ¬ k0 = k ∧ k ∉ timetable.keys rest := by
      simp only [timetable.keys, List.map_cons, List.mem_cons, not_or] at h
      exact ⟨fun e => h.1 e.symm, h.2⟩
    simp only [timetable.get, hk.1, if_false]
    exact ih hk.2

theorem flatMap_filter_of_nil {β : Type} (f : Int → List β) (h : f 0 = []) (l : List Int) :
    l.flatMap f = (l.filter (fun k => decide (k ≠ 0))).flatMap f := by
  induction l with
  | nil => rfl
  | cons a rest ih =>
    by_cases ha : a = 0
    · subst ha
      simp [h, ih]
    · simp [List.filter_cons, ha, ih]

theorem keyTimes_filter_eq_sorted_keys (tt : timetable) (h : 0 ∉ timetable.keys tt) :
    (run.keyTimes tt).filter (fun k => decide (k ≠ 0)) =
      (timetable.keys tt).insertionSort (fun a b => a ≤ b) := by
  have hperm : (run.keyTimes tt).Perm (List.replicate tt.length 0 ++ timetable.keys tt) := by
    unfold run.keyTimes
    simp only [foldl_append_keys]
    exact List.perm_insertionSort _ _
  have hsorted : (run.keyTimes tt).Sorted (fun a b => a ≤ b) := by
    unfold run.keyTimes
    exact List.sorted_insertionSort _ _
  have hkeys : (timetable.keys tt).filter (fun k => decide (k ≠ 0)) = timetable.keys tt := by
    rw [List.filter_eq_self]
    intro a ha
    have : a ≠ 0 := fun e => h (e ▸ ha)
    simpa using this
  have hfil : ((run.keyTimes tt).filter (fun k => decide (k ≠ 0))).Perm (timetable.keys tt) := by
    have := hperm.filter (fun k => decide (k ≠ 0))
    rw [List.filter_append, hkeys] at this
    simpa using this
  exact List.eq_of_perm_of_sorted
    (hfil.trans (List.perm_insertionSort _ _).symm)
    (hsorted.filter _) (List.sorted_insertionSort _ _)

/-- C14, the code on the timetables it serves well and at the failing input:
when the zero instant is no key of `tt`, the rows `run` emits are the entries
of `tt` by ascending key, each once; the timetable of an hourly job from
0000-12-31T23:00:00Z to 0001-01-01T01:00:00Z has the zero instant as a key,
and `run` emits the entry at that key four times, once for each of the three
zero values `make` put in `keyTimes` and once for the key. -/
theorem run_rows_zero_key_repeated :
    (∀ tt : timetable, 0 ∉ timetable.keys tt → run.rows tt = rowsByKey tt) ∧
      generateTimetable fixtureParse 10 hourlyJobs (-hour) hour =
        some (.returned (some zeroKeyTimetable, none)) ∧
      run.rows zeroKeyTimetable =
        [(-hour, ⟨"foo", "bar", "0 * * * *", false⟩), (0, ⟨"foo", "bar", "0 * * * *", false⟩),
         (0, ⟨"foo", "bar", "0 * * * *", false⟩), (0, ⟨"foo", "bar", "0 * * * *", false⟩),
         (0, ⟨"foo", "bar", "0 * * * *", false⟩), (hour, ⟨"foo", "bar", "0 * * * *", false⟩)] ∧
      rowsByKey zeroKeyTimetable =
        [(-hour, ⟨"foo", "bar", "0 * * * *", false⟩), (0, ⟨"foo", "bar", "0 * * * *", false⟩),
         (hour, ⟨"foo", "bar", "0 * * * *", false⟩)] := by
  refine ⟨?_, by rfl, by rfl, by rfl⟩
  intro tt h
  have h0 : (fun k => (timetable.get tt k).map (fun ttc => (k, ttc))) 0 = [] := by
    simp [timetable.get_of_not_mem_keys tt 0 h]
  unfold run.rows rowsByKey
  rw [foldl_rows_outer, List.nil_append, flatMap_filter_of_nil _ h0,
    keyTimes_filter_eq_sorted_keys tt h]

/-! ## Calls that end and calls that do not -/

theorem neverSchedule_loop_none (until_ : Int) (hu : 0 ≤ until_) (fuel : Nat) (t : Int)
    (ret : List Int) : scheduleTimeList.loop neverSchedule until_ fuel t ret = none := by
  induction fuel generalizing t ret with
  | zero => rfl
  | succ n ih =>
    unfold scheduleTimeList.loop
    have h : ¬ until_ < neverSchedule.Next t := not_lt.mpr hu
    simp only [h, if_false]
    exact ih _ _

theorem neverSchedule_scheduleTimeList_none (since until_ : Int) (hu : 0 ≤ until_)
    (fuel : Nat) : scheduleTimeList fuel neverSchedule since until_ = none := by
  unfold scheduleTimeList
  exact neverSchedule_loop_none until_ hu fuel _ _

theorem exists_uniform_fuel (ParseStandard : String → Except String Schedule)
    (since until_ : Int) (cronjobs : List CronJob)
    (h : ∀ cj ∈ cronjobs, ∃ sched fuel times, ParseStandard cj.Schedule = .ok sched ∧
      scheduleTimeList fuel sched since until_ = some times ∧
      (times ≠ [] → cj.Suspend ≠ none)) :
    ∃ N, ∀ cj ∈ cronjobs, ∃ sched times, ParseStandard cj.Schedule = .ok sched ∧
      scheduleTimeList N sched since until_ = some times ∧
      (times ≠ [] → cj.Suspend ≠ none) := by
  induction cronjobs with
  | nil => exact ⟨0, by simp⟩
  | cons cj rest ih =>
    obtain ⟨N, hN⟩ := ih (fun c hc => h c (List.mem_cons_of_mem _ hc))
    obtain ⟨sched, f0, times, hP, hT, hS⟩ := h cj (List.mem_cons_self _ _)
    refine ⟨max f0 N, ?_⟩
    intro c hc
    rcases List.mem_cons.mp hc with rfl | hc
    · exact ⟨sched, times, hP,
        scheduleTimeList_mono f0 _ sched since until_ times hT (le_max_left _ _), hS⟩
    · obtain ⟨sched', times', hP', hT', hS'⟩ := hN c hc
      exact ⟨sched', times', hP',
        scheduleTimeList_mono N _ sched' since until_ times' hT' (le_max_right _ _), hS'⟩

theorem outer_error_iff (ParseStandard : String → Except String Schedule) (fuel : Nat)
    (since until_ : Int) (cronjobs : List CronJob) (tt0 : timetable) :
    (∃ tt err, generateTimetable.outer ParseStandard fuel since until_ cronjobs tt0 =
        some (.returned (tt, some err))) ↔
      ∃ pre bad post, cronjobs = pre ++ bad :: post ∧ parses ParseStandard bad = false ∧
        ∀ cj ∈ pre, ∃ sched times, ParseStandard cj.Schedule = .ok sched ∧
          scheduleTimeList fuel sched since until_ = some times ∧
          (times ≠ [] → cj.Suspend ≠ none) := by
  induction cronjobs generalizing tt0 with
  | nil =>
    simp only [generateTimetable.outer]
    constructor
    · rintro ⟨tt, err, h⟩
      cases h
    · rintro ⟨pre, bad, post, h, -⟩
      simp at h
  | cons cj rest ih =>
    have hsplit : ∀ (hp : parses ParseStandard cj = true),
        (∃ pre bad post, cj :: rest = pre ++ bad :: post ∧ parses ParseStandard bad = false ∧
          ∀ c ∈ pre, ∃ sched times, ParseStandard c.Schedule = .ok sched ∧
            scheduleTimeList fuel sched since until_ = some times ∧
            (times ≠ [] → c.Suspend ≠ none)) ↔
        (∃ sched times, ParseStandard cj.Schedule = .ok sched ∧
            scheduleTimeList fuel sched since until_ = some times ∧
            (times ≠ [] → cj.Suspend ≠ none)) ∧
          ∃ pre bad post, rest = pre ++ bad :: post ∧ parses ParseStandard bad = false ∧
            ∀ c ∈ pre, ∃ sched times, ParseStandard c.Schedule = .ok sched ∧
              scheduleTimeList fuel sched since until_ = some times ∧
              (times ≠ [] → c.Suspend ≠ none) := by
      intro hp
      constructor
      · rintro ⟨pre, bad, post, hl, hbad, hpre⟩
        cases pre with
        | nil =>
          simp only [List.nil_append, List.cons.injEq] at hl
          rw [← hl.1, hp] at hbad
          cases hbad
        | cons a pre' =>
          simp only [List.cons_append, List.cons.injEq] at hl
          obtain ⟨rfl, hl⟩ := hl
          exact ⟨hpre cj (List.mem_cons_self _ _), pre', bad, post, hl, hbad,
            fun c hc => hpre c (List.mem_cons_of_mem _ hc)⟩
      · rintro ⟨hcj, pre, bad, post, hl, hbad, hpre⟩
        refine ⟨cj :: pre, bad, post, by simp [hl], hbad, ?_⟩
        intro c hc
        rcases List.mem_cons.mp hc with rfl | hc
        · exact hcj
        · exact hpre c hc
    unfold generateTimetable.outer
    cases hP : ParseStandard cj.Schedule with
    | error e =>
      have hp : parses ParseStandard cj = false := by simp [parses, hP]
      constructor
      · intro _
        exact ⟨[], cj, rest, rfl, hp, by simp⟩
      · intro _
        exact ⟨none, parseErrorMessage cj e, rfl⟩
    | ok sched =>
      have hp : parses ParseStandard cj = true := by simp [parses, hP]
      rw [hsplit hp]
      cases hT : scheduleTimeList fuel sched since until_ with
      | none =>
        simp only [hT]
        constructor
        · rintro ⟨tt, err, h⟩
          cases h
        · rintro ⟨⟨sched', times', hs', ht', -⟩, -⟩
          rw [hP] at hs'
          cases hs'
          rw [hT] at ht'
          cases ht'
      | some times =>
        cases hI : generateTimetable.inner cj times tt0 with
        | none =>
          have hn := (inner_eq_none_iff cj times tt0).mp hI
          simp only [hT, hI]
          constructor
          · rintro ⟨tt, err, h⟩
            cases h
          · rintro ⟨⟨sched', times', hs', ht', hsusp⟩, -⟩
            rw [hP] at hs'
            cases hs'
            rw [hT] at ht'
            cases ht'
            exact absurd hn.2 (hsusp hn.1)
        | some tt1 =>
          have hn : ¬ (times ≠ [] ∧ cj.Suspend = none) := by
            intro hcon
            rw [(inner_eq_none_iff cj times tt0).mpr hcon] at hI
            cases hI
          simp only [hT, hI]
          rw [ih tt1]
          constructor
          · intro hrest
            exact ⟨⟨sched, times, hP, hT, fun h1 h2 => hn ⟨h1, h2⟩⟩, hrest⟩
          · rintro ⟨-, hrest⟩
            exact hrest

theorem outer_error_value (ParseStandard : String → Except String Schedule) (fuel : Nat)
    (since until_ : Int) (cronjobs : List CronJob) (tt0 : timetable)
    (tt : Option timetable) (err : String)
    (h : generateTimetable.outer ParseStandard fuel since until_ cronjobs tt0 =
      some (.returned (tt, some err))) :
    tt = none ∧ ∃ bad e, cronjobs.find? (fun cj => !parses ParseStandard cj) = some bad ∧
      ParseStandard bad.Schedule = .error e ∧ err = parseErrorMessage bad e := by
  induction cronjobs generalizing tt0 with
  | nil =>
    simp only [generateTimetable.outer] at h
    cases h
  | cons cj rest ih =>
    unfold generateTimetable.outer at h
    cases hP : ParseStandard cj.Schedule with
    | error e =>
      have hp : parses ParseStandard cj = false := by simp [parses, hP]
      simp only [hP, Option.some.injEq, Outcome.returned.injEq, Prod.mk.injEq] at h
      refine ⟨h.1.symm, cj, e, ?_, hP, ?_⟩
      · simp [List.find?_cons, hp]
      · exact h.2.symm
    | ok sched =>
      have hp : parses ParseStandard cj = true := by simp [parses, hP]
      simp only [hP] at h
      cases hT : scheduleTimeList fuel sched since until_ with
      | none => simp [hT] at h
      | some times =>
        simp only [hT] at h
        cases hI : generateTimetable.inner cj times tt0 with
        | none => simp [hI] at h
        | some tt1 =>
          simp only [hI] at h
          obtain ⟨h1, bad, e, hf, hb, he⟩ := ih tt1 h
          exact ⟨h1, bad, e, by simp [List.find?_cons, hp, hf], hb, he⟩

theorem parses_eq_true_iff (ParseStandard : String → Except String Schedule) (cj : CronJob) :
    parses ParseStandard cj = true ↔ ∃ sched, ParseStandard cj.Schedule = .ok sched := by
  unfold parses
  cases h : ParseStandard cj.Schedule with
  | error e => simp
  | ok sched => simp

/-! ## Claims on the error and the panic of generateTimetable -/

/-- C3, as stated, fails twice. The second job of `nilSuspendJobs` has an
expression that does not parse, yet no call of `generateTimetable` on that
list returns anything, an error included: the first job occurs in the window
with a nil `Suspend`, and reading it panics before the second job is looked
at. The second job of `stuckBadJobs` has an expression that does not parse
either, yet no call on that list ends: the walk over the schedule of the first
job, whose `Next` always returns the zero time, never passes `until`. -/
theorem generateTimetable_error_iff_counterexample :
    ((∃ cj ∈ nilSuspendJobs, parses fixtureParse cj = false) ∧
      (∀ fuel, 2 ≤ fuel →
        generateTimetable fixtureParse fuel nilSuspendJobs t2020 (t2020 + hour) =
          some .nilDeref) ∧
      ¬ ∃ fuel r, generateTimetable fixtureParse fuel nilSuspendJobs t2020 (t2020 + hour) =
        some (.returned r)) ∧
    ((∃ cj ∈ stuckBadJobs, parses stuckParse cj = false) ∧
      ∀ fuel, generateTimetable stuckParse fuel stuckBadJobs t2020 (t2020 + hour) = none) := by
  have hpanic : ∀ fuel, 2 ≤ fuel →
      generateTimetable fixtureParse fuel nilSuspendJobs t2020 (t2020 + hour) =
        some .nilDeref := by
    intro fuel hf
    have hT := scheduleTimeList_mono 2 fuel everyHour t2020 (t2020 + hour)
      [t2020, t2020 + hour] (by rfl) hf
    have hP : fixtureParse "0 * * * *" = .ok everyHour := by rfl
    simp only [generateTimetable, nilSuspendJobs, generateTimetable.outer, hP, hT,
      generateTimetable.inner]
  refine ⟨⟨by decide, hpanic, ?_⟩, by decide, ?_⟩
  · rintro ⟨fuel, r, h⟩
    by_cases hf : 2 ≤ fuel
    · rw [hpanic fuel hf] at h
      cases h
    · have h01 : fuel = 0 ∨ fuel = 1 := by omega
      rcases h01 with rfl | rfl
      · have h0 : generateTimetable fixtureParse 0 nilSuspendJobs t2020 (t2020 + hour) =
            none := by
          rfl
        rw [h0] at h
        cases h
      · have h1 : generateTimetable fixtureParse 1 nilSuspendJobs t2020 (t2020 + hour) =
            none := by
          rfl
        rw [h1] at h
        cases h
  · intro fuel
    have hT := neverSchedule_scheduleTimeList_none t2020 (t2020 + hour) (by decide) fuel
    have hP : stuckParse "0 0 30 2 *" = .ok neverSchedule := by rfl
    simp only [generateTimetable, stuckBadJobs, generateTimetable.outer, hP, hT]

/-- C3, amended: `generateTimetable` returns an error iff some job has a
schedule expression that does not parse and every job before the first such
job has a schedule walk that ends and, when it has an occurrence in the
window, has `Suspend` set. The returned timetable is then nil and the error is
the message built from the schedule expression, namespace and name of the
first such job in input order. A nil `Suspend` after that job, or on a job
before it without occurrence, does not prevent the error. -/
theorem generateTimetable_error_iff (ParseStandard : String → Except String Schedule)
    (cronjobs : List CronJob) (since until_ : Int) :
    ((∃ fuel tt err, generateTimetable ParseStandard fuel cronjobs since until_ =
        some (.returned (tt, some err))) ↔
      ∃ pre bad post, cronjobs = pre ++ bad :: post ∧ parses ParseStandard bad = false ∧
        ∀ cj ∈ pre, ∃ sched fuel times, ParseStandard cj.Schedule = .ok sched ∧
          scheduleTimeList fuel sched since until_ = some times ∧
          (times ≠ [] → cj.Suspend ≠ none)) ∧
      (∀ fuel tt err, generateTimetable ParseStandard fuel cronjobs since until_ =
          some (.returned (tt, some err)) →
        tt = none ∧ ∃ bad e, cronjobs.find? (fun cj => !parses ParseStandard cj) = some bad ∧
          ParseStandard bad.Schedule = .error e ∧ err = parseErrorMessage bad e) ∧
      generateTimetable fixtureParse 10 badThenNilJobs t2020 (t2020 + hour) =
        some (.returned (none, some
          "Could not parse schedule spec '99 * * * *' of CronJob 'baz/qux': invalid spec: 99 * * * *")) ∧
      generateTimetable fixtureParse 10 idleNilThenBadJobs (t2020 + 1) (t2020 + minute) =
        some (.returned (none, some
          "Could not parse schedule spec '99 * * * *' of CronJob 'baz/qux': invalid spec: 99 * * * *")) := by
  refine ⟨⟨?_, ?_⟩, ?_, by rfl, by rfl⟩
  · rintro ⟨fuel, tt, err, h⟩
    obtain ⟨pre, bad, post, hl, hbad, hpre⟩ :=
      (outer_error_iff ParseStandard fuel since until_ cronjobs []).mp ⟨tt, err, h⟩
    refine ⟨pre, bad, post, hl, hbad, ?_⟩
    intro cj hcj
    obtain ⟨sched, times, h1, h2, h3⟩ := hpre cj hcj
    exact ⟨sched, fuel, times, h1, h2, h3⟩
  · rintro ⟨pre, bad, post, hl, hbad, hpre⟩
    obtain ⟨N, hN⟩ := exists_uniform_fuel ParseStandard since until_ pre hpre
    obtain ⟨tt, err, h⟩ :=
      (outer_error_iff ParseStandard N since until_ cronjobs []).mpr
        ⟨pre, bad, post, hl, hbad, hN⟩
    exact ⟨N, tt, err, h⟩
  · intro fuel tt err h
    exact outer_error_value ParseStandard fuel since until_ cronjobs [] tt err h

/-- C15, as stated, fails: every expression of `stuckJobs` parses and every
`Suspend` is set, so every job with an occurrence in the window has `Suspend`
set, yet no call of `generateTimetable` on that list ends: the walk over the
schedule, whose `Next` always returns the zero time, never passes `until`. -/
theorem generateTimetable_nilDeref_iff_counterexample :
    (∀ cj ∈ stuckJobs, parses stuckParse cj = true) ∧
      (∀ cj ∈ stuckJobs, cj.Suspend ≠ none) ∧
      ∀ fuel, generateTimetable stuckParse fuel stuckJobs t2020 (t2020 + hour) = none := by
  refine ⟨by decide, by decide, ?_⟩
  intro fuel
  have hT := neverSchedule_scheduleTimeList_none t2020 (t2020 + hour) (by decide) fuel
  have hP : stuckParse "0 0 30 2 *" = .ok neverSchedule := by rfl
  simp only [generateTimetable, stuckJobs, generateTimetable.outer, hP, hT]

/-- C15, amended: for a list whose schedule expressions all parse,
`generateTimetable` returns a timetable, without a nil dereference, iff every
job has a schedule walk that ends and, when it has an occurrence in the
window, has `Suspend` set. A call that ends returns a timetable iff every job
with an occurrence has `Suspend` set and panics iff some job with an
occurrence has a nil `Suspend`; a nil `Suspend` on a job without occurrence
does no harm. When the parsed schedules strictly advance, the call does end. -/
theorem generateTimetable_nilDeref_iff (ParseStandard : String → Except String Schedule)
    (cronjobs : List CronJob) (since until_ : Int)
    (hparse : ∀ cj ∈ cronjobs, parses ParseStandard cj = true) :
    ((∃ fuel tt, generateTimetable ParseStandard fuel cronjobs since until_ =
        some (.returned (some tt, none))) ↔
      ∀ cj ∈ cronjobs, ∀ sched, ParseStandard cj.Schedule = .ok sched →
        ∃ fuel times, scheduleTimeList fuel sched since until_ = some times ∧
          (times ≠ [] → cj.Suspend ≠ none)) ∧
      (∀ fuel o, generateTimetable ParseStandard fuel cronjobs since until_ = some o →
        ((∃ tt, o = .returned (some tt, none)) ↔ ∀ cj ∈ cronjobs,
          jobTimes ParseStandard fuel since until_ cj ≠ [] → cj.Suspend ≠ none) ∧
        (o = .nilDeref ↔ ∃ cj ∈ cronjobs,
          jobTimes ParseStandard fuel since until_ cj ≠ [] ∧ cj.Suspend = none)) ∧
      ((∀ cj ∈ cronjobs, ∀ s, ParseStandard cj.Schedule = .ok s → ∀ t, t < s.Next t) →
        ∃ fuel o, generateTimetable ParseStandard fuel cronjobs since until_ = some o) := by
  refine ⟨⟨?_, ?_⟩, ?_, ?_⟩
  rotate_right
  · intro hadv
    obtain ⟨N, hN⟩ := outer_terminates ParseStandard since until_ cronjobs hadv
    obtain ⟨o, ho⟩ := hN N le_rfl []
    exact ⟨N, o, ho⟩
  · rintro ⟨fuel, tt, h⟩ cj hcj sched hs
    obtain ⟨sched', times, h1, h2, h3⟩ :=
      (outer_success_iff ParseStandard fuel since until_ cronjobs []).mp ⟨tt, h⟩ cj hcj
    rw [hs] at h1
    cases h1
    exact ⟨fuel, times, h2, h3⟩
  · intro hall
    have hpre : ∀ cj ∈ cronjobs, ∃ sched fuel times, ParseStandard cj.Schedule = .ok sched ∧
        scheduleTimeList fuel sched since until_ = some times ∧
        (times ≠ [] → cj.Suspend ≠ none) := by
      intro cj hcj
      obtain ⟨sched, hs⟩ := (parses_eq_true_iff ParseStandard cj).mp (hparse cj hcj)
      obtain ⟨fuel, times, h2, h3⟩ := hall cj hcj sched hs
      exact ⟨sched, fuel, times, hs, h2, h3⟩
    obtain ⟨N, hN⟩ := exists_uniform_fuel ParseStandard since until_ cronjobs hpre
    obtain ⟨tt, h⟩ := (outer_success_iff ParseStandard N since until_ cronjobs []).mpr hN
    exact ⟨N, tt, h⟩
  · intro fuel o h
    rcases outer_parsed_outcome ParseStandard fuel since until_ cronjobs [] hparse o h with
      ⟨ho, c, hc, hc1, hc2⟩ | ⟨⟨tt, ho⟩, hall⟩
    · subst ho
      refine ⟨⟨?_, ?_⟩, ⟨fun _ => ⟨c, hc, hc1, hc2⟩, fun _ => rfl⟩⟩
      · rintro ⟨tt, htt⟩
        cases htt
      · intro hall
        exact absurd hc2 (hall c hc hc1)
    · subst ho
      refine ⟨⟨fun _ => hall, fun _ => ⟨tt, rfl⟩⟩, ⟨?_, ?_⟩⟩
      · intro hcon
        cases hcon
      · rintro ⟨c, hc, hc1, hc2⟩
        exact absurd hc2 (hall c hc hc1)

theorem generateTimetable_nilDeref_iff_witness :
    generateTimetable fixtureParse 10 idleNilSuspendJobs (t2020 + 1) (t2020 + minute) =
        some (.returned (some [(t2020 + minute, [⟨"baz", "qux", "* * * * *", true⟩])], none)) ∧
      ∀ cj ∈ idleNilSuspendJobs, ∀ sched, fixtureParse cj.Schedule = .ok sched →
        ∃ fuel times, scheduleTimeList fuel sched (t2020 + 1) (t2020 + minute) = some times ∧
          (times ≠ [] → cj.Suspend ≠ none) :=
  ⟨by rfl, (generateTimetable_nilDeref_iff fixtureParse idleNilSuspendJobs (t2020 + 1)
    (t2020 + minute) (by decide)).1.mp ⟨10, _, by rfl⟩⟩

/-! ## Claims on parseAbsoluteTime -/

theorem parseAbsoluteTime_loop_ok_iff {L : Type}
    (timeParse : String → String → Except String Int) (value : String) (destLocation : L)
    (ls : List String) (t : Int) (loc : L) :
    parseAbsoluteTime.loop timeParse value destLocation ls = .ok (t, loc) ↔
      loc = destLocation ∧ ∃ pre layout post, ls = pre ++ layout :: post ∧
        (∀ l ∈ pre, ∃ e, timeParse l value = .error e) ∧ timeParse layout value = .ok t := by
  induction ls with
  | nil => simp [parseAbsoluteTime.loop]
  | cons layout rest ih =>
    unfold parseAbsoluteTime.loop
    cases hp : timeParse layout value with
    | ok t' =>
      simp only [Time.In, Except.ok.injEq, Prod.mk.injEq]
      constructor
      · rintro ⟨rfl, rfl⟩
        exact ⟨rfl, [], layout, rest, rfl, by simp, hp⟩
      · rintro ⟨hloc, pre, l, post, hl, hpre, hok⟩
        refine ⟨?_, hloc.symm⟩
        cases pre with
        | nil =>
          simp only [List.nil_append, List.cons.injEq] at hl
          rw [← hl.1, hp] at hok
          exact Except.ok.inj hok
        | cons a pre' =>
          simp only [List.cons_append, List.cons.injEq] at hl
          obtain ⟨e, he⟩ := hpre a (List.mem_cons_self _ _)
          rw [← hl.1, hp] at he
          cases he
    | error e =>
      simp only
      rw [ih]
      constructor
      · rintro ⟨hloc, pre, l, post, hl, hpre, hok⟩
        refine ⟨hloc, layout :: pre, l, post, by simp [hl], ?_, hok⟩
        intro a ha
        rcases List.mem_cons.mp ha with rfl | ha
        · exact ⟨e, hp⟩
        · exact hpre a ha
      · rintro ⟨hloc, pre, l, post, hl, hpre, hok⟩
        refine ⟨hloc, ?_⟩
        cases pre with
        | nil =>
          simp only [List.nil_append, List.cons.injEq] at hl
          rw [← hl.1, hp] at hok
          cases hok
        | cons a pre' =>
          simp only [List.cons_append, List.cons.injEq] at hl
          exact ⟨pre', l, post, hl.2, fun b hb => hpre b (List.mem_cons_of_mem _ hb), hok⟩

theorem parseAbsoluteTime_loop_error_iff {L : Type}
    (timeParse : String → String → Except String Int) (value : String) (destLocation : L)
    (ls : List String) (err : String) :
    parseAbsoluteTime.loop timeParse value destLocation ls = .error err ↔
      (∀ l ∈ ls, ∃ e, timeParse l value = .error e) ∧
        err = "Could not parse time value '" ++ value ++ "'" := by
  induction ls with
  | nil =>
    simp only [parseAbsoluteTime.loop, Except.error.injEq, List.not_mem_nil, false_implies,
      implies_true, true_and]
    exact eq_comm
  | cons layout rest ih =>
    unfold parseAbsoluteTime.loop
    cases hp : timeParse layout value with
    | ok t' =>
      simp only [List.mem_cons, forall_eq_or_imp, hp]
      constructor
      · intro h
        cases h
      · rintro ⟨⟨⟨e, he⟩, -⟩, -⟩
        cases he
    | error e =>
      simp only [List.mem_cons, forall_eq_or_imp, hp]
      rw [ih]
      constructor
      · rintro ⟨h1, h2⟩
        exact ⟨⟨⟨e, rfl⟩, h1⟩, h2⟩
      · rintro ⟨⟨-, h1⟩, h2⟩
        exact ⟨h1, h2⟩

theorem parseChunk_preserves (c : Chunk) (f f' : Fields) (v v' : List Char)
    (h : parseChunk c f v = some (f', v')) :
    (c ≠ .year → f'.year = f.year) ∧ (c ≠ .month → f'.month = f.month) ∧
      (c ≠ .day → f'.day = f.day) ∧ (c ≠ .hour → f'.hour = f.hour) ∧
      (c ≠ .minute → f'.min = f.min) ∧ (c ≠ .second → f'.sec = f.sec ∧ f'.nsec = f.nsec) ∧
      (c ≠ .zone → f'.offset = f.offset) := by
  cases c with
  | year =>
    simp only [parseChunk, Option.map_eq_some'] at h
    obtain ⟨p, -, hp⟩ := h
    cases hp
    simp
  | month =>
    simp only [parseChunk, Option.bind_eq_some] at h
    obtain ⟨p, -, hp⟩ := h
    split at hp
    · cases hp
      simp
    · cases hp
  | day =>
    simp only [parseChunk, Option.map_eq_some'] at h
    obtain ⟨p, -, hp⟩ := h
    cases hp
    simp
  | hour =>
    simp only [parseChunk, Option.bind_eq_some] at h
    obtain ⟨p, -, hp⟩ := h
    split at hp
    · cases hp
      simp
    · cases hp
  | minute =>
    simp only [parseChunk, Option.bind_eq_some] at h
    obtain ⟨p, -, hp⟩ := h
    split at hp
    · cases hp
      simp
    · cases hp
  | second =>
    simp only [parseChunk, Option.bind_eq_some] at h
    obtain ⟨p, -, hp⟩ := h
    split at hp
    · cases hp
      simp
    · cases hp
  | zone =>
    simp only [parseChunk, Option.map_eq_some'] at h
    obtain ⟨p, -, hp⟩ := h
    cases hp
    simp
  | lit c =>
    simp only [parseChunk] at h
    split at h
    · cases h
    · split at h
      · cases h
        simp
      · cases h

theorem parseChunks_preserves (cs : List Chunk) (f f' : Fields) (v v' : List Char)
    (h : parseChunks cs f v = some (f', v')) :
    (Chunk.year ∉ cs → f'.year = f.year) ∧ (Chunk.month ∉ cs → f'.month = f.month) ∧
      (Chunk.day ∉ cs → f'.day = f.day) ∧ (Chunk.hour ∉ cs → f'.hour = f.hour) ∧
      (Chunk.minute ∉ cs → f'.min = f.min) ∧
      (Chunk.second ∉ cs → f'.sec = f.sec ∧ f'.nsec = f.nsec) ∧
      (Chunk.zone ∉ cs → f'.offset = f.offset) := by
  induction cs generalizing f v with
  | nil =>
    simp only [parseChunks, Option.some.injEq, Prod.mk.injEq] at h
    obtain ⟨rfl, -⟩ := h
    simp
  | cons c rest ih =>
    unfold parseChunks at h
    cases hc : parseChunk c f v with
    | none => simp [hc] at h
    | some p =>
      obtain ⟨f1, v1⟩ := p
      simp only [hc] at h
      obtain ⟨a1, a2, a3, a4, a5, a6, a7⟩ := parseChunk_preserves c f f1 v v1 hc
      obtain ⟨b1, b2, b3, b4, b5, b6, b7⟩ := ih f1 v1 h
      simp only [List.mem_cons, not_or]
      refine ⟨?_, ?_, ?_, ?_, ?_, ?_, ?_⟩
      · exact fun hn => (b1 hn.2).trans (a1 (Ne.symm hn.1))
      · exact fun hn => (b2 hn.2).trans (a2 (Ne.symm hn.1))
      · exact fun hn => (b3 hn.2).trans (a3 (Ne.symm hn.1))
      · exact fun hn => (b4 hn.2).trans (a4 (Ne.symm hn.1))
      · exact fun hn => (b5 hn.2).trans (a5 (Ne.symm hn.1))
      · exact fun hn => ⟨(b6 hn.2).1.trans (a6 (Ne.symm hn.1)).1,
          (b6 hn.2).2.trans (a6 (Ne.symm hn.1)).2⟩
      · exact fun hn => (b7 hn.2).trans (a7 (Ne.symm hn.1))

theorem time_Parse_ok (layout value : String) (t : Int) (h : time.Parse layout value = .ok t) :
    ∃ f : Fields, t = f.instant ∧
      (Chunk.month ∉ layoutChunks layout → f.month = 1) ∧
      (Chunk.day ∉ layoutChunks layout → f.day = 1) ∧
      (Chunk.hour ∉ layoutChunks layout → f.hour = 0) ∧
      (Chunk.minute ∉ layoutChunks layout → f.min = 0) ∧
      (Chunk.second ∉ layoutChunks layout → f.sec = 0 ∧ f.nsec = 0) ∧
      (Chunk.zone ∉ layoutChunks layout → f.offset = 0) := by
  unfold time.Parse at h
  cases hf : parseFields layout value with
  | none => simp [hf] at h
  | some f =>
    simp only [hf, Except.ok.injEq] at h
    refine ⟨f, h.symm, ?_⟩
    unfold parseFields at hf
    split at hf
    · rename_i f1 hc
      split at hf
      · cases hf
        obtain ⟨-, b2, b3, b4, b5, b6, b7⟩ := parseChunks_preserves _ _ _ _ _ hc
        exact ⟨b2, b3, b4, b5, b6, b7⟩
      · cases hf
    · cases hf

theorem time_Parse_forms (value : String) (t : Int) :
    (time.Parse "2006" value = .ok t → ∃ y, t = dateUTC y 1 1 0 0 0 0) ∧
      (time.Parse "2006-01" value = .ok t → ∃ y m, t = dateUTC y m 1 0 0 0 0) ∧
      (time.Parse "2006-01-02" value = .ok t → ∃ y m d, t = dateUTC y m d 0 0 0 0) ∧
      (time.Parse "2006-01-02T15" value = .ok t → ∃ y m d h, t = dateUTC y m d h 0 0 0) ∧
      (time.Parse "2006-01-02T15:04" value = .ok t →
        ∃ y m d h mi, t = dateUTC y m d h mi 0 0) ∧
      (time.Parse "2006-01-02T15:04:05" value = .ok t →
        ∃ y m d h mi s ns, t = dateUTC y m d h mi s ns) ∧
      (time.Parse "2006-01-02T15:04:05Z07:00" value = .ok t →
        ∃ y m d h mi s ns off, t = dateUTC y m d h mi s ns - off * second) := by
  refine ⟨?_, ?_, ?_, ?_, ?_, ?_, ?_⟩
  · intro h
    obtain ⟨f, rfl, hm, hd, hh, hmi, hs, hz⟩ := time_Parse_ok _ _ _ h
    have hc : layoutChunks "2006" = [.year] := by rfl
    rw [hc] at hm hd hh hmi hs hz
    refine ⟨f.year, ?_⟩
    simp [Fields.instant, hm (by decide), hd (by decide), hh (by decide), hmi (by decide),
      hs (by decide), hz (by decide)]
  · intro h
    obtain ⟨f, rfl, -, hd, hh, hmi, hs, hz⟩ := time_Parse_ok _ _ _ h
    have hc : layoutChunks "2006-01" = [.year, .lit '-', .month] := by rfl
    rw [hc] at hd hh hmi hs hz
    refine ⟨f.year, f.month, ?_⟩
    simp [Fields.instant, hd (by decide), hh (by decide), hmi (by decide),
      hs (by decide), hz (by decide)]
  · intro h
    obtain ⟨f, rfl, -, -, hh, hmi, hs, hz⟩ := time_Parse_ok _ _ _ h
    have hc : layoutChunks "2006-01-02" =
        [.year, .lit '-', .month, .lit '-', .day] := by rfl
    rw [hc] at hh hmi hs hz
    refine ⟨f.year, f.month, f.day, ?_⟩
    simp [Fields.instant, hh (by decide), hmi (by decide), hs (by decide), hz (by decide)]
  · intro h
    obtain ⟨f, rfl, -, -, -, hmi, hs, hz⟩ := time_Parse_ok _ _ _ h
    have hc : layoutChunks "2006-01-02T15" =
        [.year, .lit '-', .month, .lit '-', .day, .lit 'T', .hour] := by rfl
    rw [hc] at hmi hs hz
    refine ⟨f.year, f.month, f.day, f.hour, ?_⟩
    simp [Fields.instant, hmi (by decide), hs (by decide), hz (by decide)]
  · intro h
    obtain ⟨f, rfl, -, -, -, -, hs, hz⟩ := time_Parse_ok _ _ _ h
    have hc : layoutChunks "2006-01-02T15:04" =
        [.year, .lit '-', .month, .lit '-', .day, .lit 'T', .hour, .lit ':', .minute] := by
      rfl
    rw [hc] at hs hz
    refine ⟨f.year, f.month, f.day, f.hour, f.min, ?_⟩
    simp [Fields.instant, hs (by decide), hz (by decide)]
  · intro h
    obtain ⟨f, rfl, -, -, -, -, -, hz⟩ := time_Parse_ok _ _ _ h
    have hc : layoutChunks "2006-01-02T15:04:05" =
        [.year, .lit '-', .month, .lit '-', .day, .lit 'T', .hour, .lit ':', .minute,
          .lit ':', .second] := by
      rfl
    rw [hc] at hz
    refine ⟨f.year, f.month, f.day, f.hour, f.min, f.sec, f.nsec, ?_⟩
    simp [Fields.instant, hz (by decide)]
  · intro h
    obtain ⟨f, rfl, -⟩ := time_Parse_ok _ _ _ h
    exact ⟨f.year, f.month, f.day, f.hour, f.min, f.sec, f.nsec, f.offset, rfl⟩

/-- C11: `parseAbsoluteTime` tries the seven layouts in their order (RFC3339
with offset, date and hour:min:sec, date and hour:min, date and hour, date,
year-month, year). It returns the error "Could not parse time value '...'" iff
`time.Parse` rejects the value for all seven. Otherwise it returns the instant
that `time.Parse` gives for the first layout it accepts, unchanged, in the
location `destLocation`. For each layout the instant that `time.Parse` gives
has the omitted elements at their minimum: month 1, day 1, 00:00:00, and UTC
for the layouts without a zone. The cases of `Test_parseAbsoluteTime` come out
as the test expects. -/
theorem parseAbsoluteTime_first_layout {L : Type}
    (timeParse : String → String → Except String Int) (value : String) (destLocation : L) :
    layouts = ["2006-01-02T15:04:05Z07:00", "2006-01-02T15:04:05", "2006-01-02T15:04",
        "2006-01-02T15", "2006-01-02", "2006-01", "2006"] ∧
      ((∃ err, parseAbsoluteTime timeParse value destLocation = .error err) ↔
        ∀ layout ∈ layouts, ∃ e, timeParse layout value = .error e) ∧
      (∀ err, parseAbsoluteTime timeParse value destLocation = .error err →
        err = "Could not parse time value '" ++ value ++ "'") ∧
      (∀ t loc, parseAbsoluteTime timeParse value destLocation = .ok (t, loc) ↔
        loc = destLocation ∧ ∃ pre layout post, layouts = pre ++ layout :: post ∧
          (∀ l ∈ pre, ∃ e, timeParse l value = .error e) ∧ timeParse layout value = .ok t) ∧
      (∀ t,
        (time.Parse "2006" value = .ok t → ∃ y, t = dateUTC y 1 1 0 0 0 0) ∧
        (time.Parse "2006-01" value = .ok t → ∃ y m, t = dateUTC y m 1 0 0 0 0) ∧
        (time.Parse "2006-01-02" value = .ok t → ∃ y m d, t = dateUTC y m d 0 0 0 0) ∧
        (time.Parse "2006-01-02T15" value = .ok t → ∃ y m d h, t = dateUTC y m d h 0 0 0) ∧
        (time.Parse "2006-01-02T15:04" value = .ok t →
          ∃ y m d h mi, t = dateUTC y m d h mi 0 0) ∧
        (time.Parse "2006-01-02T15:04:05" value = .ok t →
          ∃ y m d h mi s ns, t = dateUTC y m d h mi s ns) ∧
        (time.Parse "2006-01-02T15:04:05Z07:00" value = .ok t →
          ∃ y m d h mi s ns off, t = dateUTC y m d h mi s ns - off * second)) ∧
      (dateUTC 1 1 1 0 0 0 0 = 0 ∧ dateUTC 1970 1 1 0 0 0 0 = 62135596800 * second ∧
        dateUTC 2020 1 1 0 0 0 0 = t2020 ∧ utcDay (dateUTC 2020 2 29 0 0 0 0) = 29 ∧
        parseAbsoluteTime time.Parse "2020-01-01T00:00:00Z" Loc.utc = .ok (t2020, Loc.utc) ∧
        parseAbsoluteTime time.Parse "2020-01-01T00:00:00+00:00" Loc.utc =
          .ok (t2020, Loc.utc) ∧
        parseAbsoluteTime time.Parse "2020-01-01T00:00:00" Loc.utc = .ok (t2020, Loc.utc) ∧
        parseAbsoluteTime time.Parse "2020-01-01T00:00" Loc.utc = .ok (t2020, Loc.utc) ∧
        parseAbsoluteTime time.Parse "2020-01-01T00" Loc.utc = .ok (t2020, Loc.utc) ∧
        parseAbsoluteTime time.Parse "2020-01-01" Loc.utc = .ok (t2020, Loc.utc) ∧
        parseAbsoluteTime time.Parse "2020-01" Loc.utc = .ok (t2020, Loc.utc) ∧
        parseAbsoluteTime time.Parse "2020" Loc.utc = .ok (t2020, Loc.utc) ∧
        parseAbsoluteTime time.Parse "2020-01-01T00:00:00Z" Loc.display =
          .ok (t2020, Loc.display) ∧
        parseAbsoluteTime time.Parse "2020-01-01T09:00:00+09:00" Loc.display =
          .ok (t2020, Loc.display) ∧
        parseAbsoluteTime time.Parse "2020-13" Loc.utc =
          .error "Could not parse time value '2020-13'") := by
  refine ⟨rfl, ?_, ?_, ?_, fun t => time_Parse_forms value t,
    by rfl, by rfl, by rfl, by rfl,
    by rfl, by rfl, by rfl, by rfl, by rfl, by rfl, by rfl, by rfl, by rfl, by rfl, by rfl⟩
  · constructor
    · rintro ⟨err, h⟩
      exact ((parseAbsoluteTime_loop_error_iff timeParse value destLocation layouts err).mp h).1
    · intro h
      exact ⟨_, (parseAbsoluteTime_loop_error_iff timeParse value destLocation layouts _).mpr
        ⟨h, rfl⟩⟩
  · intro err h
    exact ((parseAbsoluteTime_loop_error_iff timeParse value destLocation layouts err).mp h).2
  · intro t loc
    exact parseAbsoluteTime_loop_ok_iff timeParse value destLocation layouts t loc

end CronjobTimetable
